import Mathlib

/-!
# Safety check of a resource-allocation state (`src/allocator.cpp`)

A shallow embedding of the allocator: resource vectors with 32-bit unsigned
counts, owners, configurations, and the frontier search `isValid`.

* `ResourceCount = uint32_t` is a natural number below `2 ^ 32`; every
  arithmetic result is reduced modulo `4294967296 = 2 ^ 32`.
* `Resources = std::vector<ResourceCount>` is a list of such numbers.
* `std::multiset<Owner>` is the list of its elements in iteration order.
* `std::priority_queue<Configuration, ..., std::greater<Configuration>>` is a
  parameter of the search (`PriorityQueue`): any container that hands back
  the configurations pushed into it.  `sortedQueue` is the instance ordered by
  `Configuration::operator>`.
* An `assert` of the source is a precondition of the embedded function; the
  functions themselves are total.
-/

namespace Allocator

/-! ## Resource vectors -/

/-- Counts of each resource kind, `std::vector<uint32_t>`. -/
abbrev Resources := List Nat

/-- Every count fits the type `uint32_t`. -/
def Resources.inRange (v : Resources) : Prop := ∀ x ∈ v, x < 4294967296

/-- Conversion of a `uint32_t` value to `std::make_signed_t<ResourceCount>`
(two's complement `int32_t`). -/
def toSigned (w : Nat) : Int :=
  if w < 2147483648 then (w : Int) else (w : Int) - 4294967296

/-- The function `zero`: every coordinate is set to 0. -/
def zero (resources : Resources) : Resources := resources.map (fun _ => 0)

/-- `operator+(Resources, Resources)`: `result = left`, then
`result[i] += right[i]` for every index (asserts equal sizes). -/
def Resources.add : Resources → Resources → Resources
  | l :: ls, r :: rs => (l + r) % 4294967296 :: Resources.add ls rs
  | ls, _ => ls

/-- `operator-(Resources, Resources)`: `result = left`, then
`result[i] -= right[i]` for every index (asserts equal sizes). -/
def Resources.sub : Resources → Resources → Resources
  | l :: ls, r :: rs => (l + 4294967296 - r) % 4294967296 :: Resources.sub ls rs
  | ls, _ => ls

/-- `operator<(Resources, Resources)`: at each index the unsigned difference
`left[i] - right[i]` is stored in a signed 32-bit `result`; the first non-zero
`result` decides by its sign (asserts equal sizes). -/
def Resources.lt : Resources → Resources → Bool
  | l :: ls, r :: rs =>
    let result : Int := toSigned ((l + 4294967296 - r) % 4294967296)
    if result ≠ 0 then decide (result < 0) else Resources.lt ls rs
  | _, _ => false

/-! ## Owners -/

/-- The struct `Owner`. -/
structure Owner where
  completed : Bool
  owned : Resources
  required : Resources
deriving DecidableEq

/-- The constructor `Owner::Owner(owned, required)`: `completed` starts true
and is cleared by every non-zero element of `required` (asserts equal sizes). -/
def Owner.new (owned required : Resources) : Owner :=
  { completed := required.foldl (fun completed elem => if elem ≠ 0 then false else completed) true
    owned := owned
    required := required }

/-- `Owner::getRequired`. -/
def Owner.getRequired (o : Owner) : Resources := o.required

/-- `Owner::isComplete`. -/
def Owner.isComplete (o : Owner) : Bool := o.completed

/-- `Owner::allocate`: returns `freed = required + owned` together with the
owner after the call (both vectors zeroed, `completed` set). -/
def Owner.allocate (o : Owner) : Resources × Owner :=
  let freed := Resources.add o.required o.owned
  (freed, { completed := true, owned := zero o.owned, required := zero o.required })

/-- `Owner::operator<` (asserts equal sizes of the `required` vectors). -/
def Owner.lt (o other : Owner) : Bool :=
  if o.completed != other.completed then o.completed
  else Resources.lt o.required other.required

/-! ## The multiset of owners -/

/-- `PrioritisedOwnership = std::multiset<Owner>`, as its iteration order. -/
abbrev PrioritisedOwnership := List Owner

/-- Insertion of one owner into the multiset: it goes before the first element
that it is less than (after every element it is not less than). -/
def PrioritisedOwnership.insert (x : Owner) : PrioritisedOwnership → PrioritisedOwnership
  | [] => [x]
  | y :: ys =>
    if Owner.lt x y then x :: y :: ys else y :: PrioritisedOwnership.insert x ys

/-- The range constructor `multiset{ owned.begin(), owned.end() }`: the
elements are inserted one after the other. -/
def PrioritisedOwnership.ofRange (owned : List Owner) : PrioritisedOwnership :=
  owned.foldl (fun s o => PrioritisedOwnership.insert o s) []

/-- `operator<(PrioritisedOwnership, PrioritisedOwnership)`: position-wise
comparison, the first position where one owner is less decides (asserts equal
sizes). -/
def PrioritisedOwnership.lt : PrioritisedOwnership → PrioritisedOwnership → Bool
  | l :: ls, r :: rs =>
    if Owner.lt l r then true
    else if Owner.lt r l then false
    else PrioritisedOwnership.lt ls rs
  | _, _ => false

/-! ## Configurations -/

/-- The class `Configuration`. -/
structure Configuration where
  owned : PrioritisedOwnership
  free : Resources
deriving DecidableEq

/-- The constructor `Configuration::Configuration(owned, free)` (asserts that
`owned` is not empty). -/
def Configuration.new (owned : List Owner) (free : Resources) : Configuration :=
  { owned := PrioritisedOwnership.ofRange owned, free := free }

/-- `Configuration::operator<` (asserts equal numbers of owners). -/
def Configuration.lt (c other : Configuration) : Bool :=
  if Resources.lt c.free other.free then true
  else if Resources.lt other.free c.free then false
  else PrioritisedOwnership.lt c.owned other.owned

/-- `Configuration::operator>` (asserts equal numbers of owners). -/
def Configuration.gt (c other : Configuration) : Bool :=
  if Resources.lt other.free c.free then true
  else if Resources.lt c.free other.free then false
  else PrioritisedOwnership.lt other.owned c.owned

/-- `Configuration::isComplete`: no owner is incomplete. -/
def Configuration.isComplete (c : Configuration) : Bool :=
  c.owned.all (fun owner => owner.isComplete)

/-- `Configuration::getOwned`. -/
def Configuration.getOwned (c : Configuration) : PrioritisedOwnership := c.owned

/-- `Configuration::getFree`. -/
def Configuration.getFree (c : Configuration) : Resources := c.free

/-! ## The frontier -/

/-- What `isValid` uses of `std::priority_queue<Configuration>`: an empty
queue, `push`, and `pop?`, which is `none` on an empty queue and otherwise
gives `top()` with the queue left by `pop()`.  `items` lists what the queue
holds; the laws say that nothing is lost or invented.  Which element is on top
is left to the instance. -/
structure PriorityQueue where
  Q : Type
  empty : Q
  push : Q → Configuration → Q
  pop? : Q → Option (Configuration × Q)
  items : Q → List Configuration
  items_empty : items empty = []
  items_push : ∀ q c, (items (push q c)).Perm (c :: items q)
  items_of_pop_none : ∀ q, pop? q = none → items q = []
  items_of_pop_some : ∀ q c q', pop? q = some (c, q') → (items q).Perm (c :: items q')

/-- Insertion into a list kept in the order of `std::greater<Configuration>`
priority: the new configuration goes before the first one that is greater. -/
def sortedInsert (c : Configuration) : List Configuration → List Configuration
  | [] => [c]
  | x :: xs => if Configuration.gt x c then c :: x :: xs else x :: sortedInsert c xs

/-- A priority queue whose top is the least configuration under
`Configuration::operator>`, kept as a sorted list. -/
def sortedQueue : PriorityQueue where
  Q := List Configuration
  empty := []
  push := fun q c => sortedInsert c q
  pop? := fun q =>
    match q with
    | [] => none
    | c :: rest => some (c, rest)
  items := fun q => q
  items_empty := rfl
  items_push := by
    intro q c
    induction q with
    | nil => exact List.Perm.refl _
    | cons x xs ih =>
      show (sortedInsert c (x :: xs)).Perm (c :: x :: xs)
      simp only [sortedInsert]
      split
      · exact List.Perm.refl _
      · exact (List.Perm.cons x ih).trans (List.Perm.swap c x xs)
  items_of_pop_none := by
    intro q h
    cases q with
    | nil => rfl
    | cons x xs => simp at h
  items_of_pop_some := by
    intro q c q' h
    cases q with
    | nil => simp at h
    | cons x xs =>
      simp only [Option.some.injEq, Prod.mk.injEq] at h
      obtain ⟨h1, h2⟩ := h
      subst h1
      subst h2
      exact List.Perm.refl _

/-! ## The search -/

/-- The body of the `for` loop of `isValid` at index `i`: `none` when the
owner is skipped (`continue`), otherwise the configuration that is pushed. -/
def successorAt (free : Resources) (simpleOwned : List Owner) (i : Nat) :
    Option Configuration :=
  match simpleOwned[i]? with
  | none => none
  | some owner =>
    if owner.isComplete then none
    else if Resources.lt free owner.getRequired then none
    else
      let allocated := owner.allocate
      let newOwned := simpleOwned.set i allocated.2
      some (Configuration.new newOwned (Resources.add free allocated.1))

/-- The configurations pushed by one pass of the `for` loop over the popped
configuration `c`, in the order of the pushes. -/
def successors (c : Configuration) : List Configuration :=
  let free := c.getFree
  let simpleOwned : List Owner := c.getOwned
  (List.range simpleOwned.length).filterMap (successorAt free simpleOwned)

/-- The `while` loop of `isValid` on the queue `configurations`, with the
number of iterations bounded by `fuel` (`none` when the bound is reached).
The result is the value returned by `isValid` and the list of configurations
that were popped and expanded, in order. -/
def isValidLoop (pq : PriorityQueue) : Nat → pq.Q → Option (Bool × List Configuration)
  | 0, _ => none
  | fuel + 1, configurations =>
    match pq.pop? configurations with
    | none => some (false, [])
    | some (c, rest) =>
      if c.isComplete then some (true, [])
      else
        let pushed := successors c
        if pushed.isEmpty then some ((pq.pop? rest).isSome, [c])
        else
          (isValidLoop pq fuel (pushed.foldl pq.push rest)).map
            (fun r => (r.1, c :: r.2))

/-- Number of incomplete owners of a configuration. -/
def incomplete (c : Configuration) : Nat :=
  c.owned.countP (fun o => !o.isComplete)

/-- Bound on the loop iterations spent below a configuration with `k`
incomplete owners: `1, 2, 5, 16, 65, ...`. -/
def searchWeight : Nat → Nat
  | 0 => 1
  | k + 1 => (k + 1) * searchWeight k + 1

/-- Total weight of the configurations of a frontier. -/
def frontierWeight (l : List Configuration) : Nat :=
  (l.map (fun c => searchWeight (incomplete c))).sum

/-- The run of `isValid(startConfig)`: the loop on the queue that holds
`startConfig`, with fuel that the search cannot exhaust. -/
def isValidRun (pq : PriorityQueue) (startConfig : Configuration) :
    Option (Bool × List Configuration) :=
  isValidLoop pq (searchWeight (incomplete startConfig) + 1) (pq.push pq.empty startConfig)

/-- The function `isValid`: the verdict of the run. -/
def isValid (pq : PriorityQueue) (startConfig : Configuration) : Option Bool :=
  (isValidRun pq startConfig).map Prod.fst

/-- The configurations `isValid` pops and expands, in order. -/
def expanded (pq : PriorityQueue) (startConfig : Configuration) : Option (List Configuration) :=
  (isValidRun pq startConfig).map Prod.snd

/-- The configurations that `isValid` places on the frontier: the start
configuration and, for each expanded configuration, what the `for` loop pushed. -/
def enqueued (pq : PriorityQueue) (startConfig : Configuration) : Option (List Configuration) :=
  (expanded pq startConfig).map (fun t => startConfig :: t.flatMap successors)

/-! ## The assertions

The same functions with their `assert`s evaluated: the result is `none` when an
assertion is reached with a false condition, and `some` of the value otherwise. -/

/-- `operator+(Resources, Resources)` with its assertion
`left.size() == right.size()`. -/
def Resources.add? (left right : Resources) : Option Resources :=
  if left.length = right.length then some (Resources.add left right) else none

/-- `operator<(Resources, Resources)` with its assertion
`left.size() == right.size()`. -/
def Resources.lt? (left right : Resources) : Option Bool :=
  if left.length = right.length then some (Resources.lt left right) else none

/-- The constructor `Owner::Owner` with its assertion
`owned.size() == required.size()`. -/
def Owner.new? (owned required : Resources) : Option Owner :=
  if owned.length = required.length then some (Owner.new owned required) else none

/-- `Owner::allocate`, with the assertion of `required + owned`. -/
def Owner.allocate? (o : Owner) : Option (Resources × Owner) :=
  match Resources.add? o.required o.owned with
  | none => none
  | some freed =>
    some (freed, { completed := true, owned := zero o.owned, required := zero o.required })

/-- `Owner::operator<` with its assertion
`required.size() == other.required.size()` and the assertion of the vector
comparison. -/
def Owner.lt? (o other : Owner) : Option Bool :=
  if o.required.length = other.required.length then
    if o.completed != other.completed then some o.completed
    else Resources.lt? o.required other.required
  else none

/-- Insertion into the multiset, with the assertions of the comparisons. -/
def PrioritisedOwnership.insert? (x : Owner) :
    PrioritisedOwnership → Option PrioritisedOwnership
  | [] => some [x]
  | y :: ys =>
    match Owner.lt? x y with
    | none => none
    | some true => some (x :: y :: ys)
    | some false => (PrioritisedOwnership.insert? x ys).map (fun rest => y :: rest)

/-- The range constructor of the multiset, with the assertions of the
comparisons. -/
def PrioritisedOwnership.ofRange? (owned : List Owner) : Option PrioritisedOwnership :=
  owned.foldl (fun s o => s.bind (PrioritisedOwnership.insert? o)) (some [])

/-- The loop of `operator<(PrioritisedOwnership, PrioritisedOwnership)`, with
the assertions of the owner comparisons. -/
def PrioritisedOwnership.ltLoop? : PrioritisedOwnership → PrioritisedOwnership → Option Bool
  | l :: ls, r :: rs =>
    match Owner.lt? l r with
    | none => none
    | some true => some true
    | some false =>
      match Owner.lt? r l with
      | none => none
      | some true => some false
      | some false => PrioritisedOwnership.ltLoop? ls rs
  | _, _ => some false

/-- `operator<(PrioritisedOwnership, PrioritisedOwnership)` with its assertion
`left.size() == right.size()`. -/
def PrioritisedOwnership.lt? (left right : PrioritisedOwnership) : Option Bool :=
  if left.length = right.length then PrioritisedOwnership.ltLoop? left right else none

/-- The constructor `Configuration::Configuration`: the multiset is built from
the range, then `owned.size() > 0` is asserted. -/
def Configuration.new? (owned : List Owner) (free : Resources) : Option Configuration :=
  match PrioritisedOwnership.ofRange? owned with
  | none => none
  | some s => if owned.length > 0 then some { owned := s, free := free } else none

/-- `Configuration::operator>` with its assertion
`owned.size() == other.owned.size()` and the assertions of the comparisons
it calls. -/
def Configuration.gt? (c other : Configuration) : Option Bool :=
  if c.owned.length = other.owned.length then
    match Resources.lt? other.free c.free with
    | none => none
    | some true => some true
    | some false =>
      match Resources.lt? c.free other.free with
      | none => none
      | some true => some false
      | some false => PrioritisedOwnership.lt? other.owned c.owned
  else none

/-- The body of the `for` loop of `isValid` at index `i`, with the assertions
of `free < required`, of `allocate`, of `free + freed` and of the
`Configuration` constructor: `none` when an assertion fails, `some none` when
the owner is skipped, `some (some c)` when `c` is pushed. -/
def successorAt? (free : Resources) (simpleOwned : List Owner) (i : Nat) :
    Option (Option Configuration) :=
  match simpleOwned[i]? with
  | none => some none
  | some owner =>
    if owner.isComplete then some none
    else
      match Resources.lt? free owner.getRequired with
      | none => none
      | some true => some none
      | some false =>
        match owner.allocate? with
        | none => none
        | some allocated =>
          match Resources.add? free allocated.1 with
          | none => none
          | some newFree =>
            (Configuration.new? (simpleOwned.set i allocated.2) newFree).map some

/-- One pass of the `for` loop with the assertions evaluated: `none` when an
assertion fails, otherwise the configurations that are pushed. -/
def successors? (c : Configuration) : Option (List Configuration) :=
  ((List.range c.getOwned.length).mapM (successorAt? c.getFree c.getOwned)).map
    (fun pushed => pushed.filterMap id)

/-- Construction of the input of `isValid` as in `main`: every owner by
`Owner::Owner`, then the configuration by `Configuration::Configuration`;
`none` when a constructor's assertion fails. -/
def construct (owners : List (Resources × Resources)) (free : Resources) :
    Option Configuration :=
  match owners.mapM (fun p => Owner.new? p.1 p.2) with
  | none => none
  | some built => Configuration.new? built free

/-! ## Notions of the specification -/

/-- A well-formed configuration of vector width `k`: the owner list is not
empty, the free pool and every owner's `owned` and `required` vectors have
length `k`, and every count is a `uint32_t` value. -/
def Configuration.WellFormed (k : Nat) (c : Configuration) : Prop :=
  c.owned ≠ [] ∧ c.free.length = k ∧ Resources.inRange c.free ∧
    ∀ o ∈ c.owned, o.owned.length = k ∧ o.required.length = k ∧
      Resources.inRange o.owned ∧ Resources.inRange o.required

/-- One successor step of the search: `c'` is one of the configurations that
the `for` loop of `isValid` pushes when it expands `c`. -/
def Step (c c' : Configuration) : Prop := c' ∈ successors c

/-- Reachability by zero or more successor steps of the search. -/
def Reachable (c c' : Configuration) : Prop := Relation.ReflTransGen Step c c'

/-- The lexicographic order on the numeric values: some index `i` has
`a[j] = b[j]` for all `j < i` and `a[i]` numerically smaller than `b[i]`. -/
def LexLess (a b : Resources) : Prop :=
  ∃ i, i < a.length ∧ i < b.length ∧ (∀ j, j < i → a.getD j 0 = b.getD j 0) ∧
    a.getD i 0 < b.getD i 0

/-- Position-wise precedence of owner sequences: at some position the left
owner is less than the right one, and at no earlier position is either owner
less than the other. -/
def OwnersPrecede (left right : PrioritisedOwnership) : Prop :=
  ∃ (i : Nat) (x y : Owner), left[i]? = some x ∧ right[i]? = some y ∧ Owner.lt x y = true ∧
    ∀ (j : Nat) (u v : Owner), j < i → left[j]? = some u → right[j]? = some v →
      Owner.lt u v = false ∧ Owner.lt v u = false

/-- Coordinate-wise dominance: `a` is at least `b` in every coordinate. -/
def Dominates (a b : Resources) : Prop :=
  ∀ i, i < b.length → b.getD i 0 ≤ a.getD i 0

/-- An ordering of owners in which every request can be granted at its turn:
`pool j` is coordinate `j` of the pool (plain natural numbers), each owner's
`required` is at most the pool in every coordinate `j < k`, and the pool
grows by `owned + required` of the owner once it has completed. -/
def SafeOrder (k : Nat) : (Nat → Nat) → List Owner → Prop
  | _, [] => True
  | pool, o :: os =>
    (∀ j, j < k → o.required.getD j 0 ≤ pool j) ∧
      SafeOrder k (fun j => pool j + o.owned.getD j 0 + o.required.getD j 0) os

/-- The configurations reachable from `c` by at most `n` successor steps,
listed by following `successors`. -/
def reachableIn : Nat → Configuration → List Configuration
  | 0, c => [c]
  | n + 1, c => c :: (successors c).flatMap (reachableIn n)

instance (v : Resources) : Decidable (Resources.inRange v) := by
  unfold Resources.inRange
  infer_instance

instance (k : Nat) (c : Configuration) : Decidable (Configuration.WellFormed k c) := by
  unfold Configuration.WellFormed
  infer_instance

instance (c c' : Configuration) : Decidable (Step c c') := by
  unfold Step
  infer_instance

instance (a b : Resources) : Decidable (LexLess a b) := by
  unfold LexLess
  infer_instance

instance (a b : Resources) : Decidable (Dominates a b) := by
  unfold Dominates
  infer_instance

/-! ## Fixtures -/

/-- Owner `a` of `main`. -/
def ownerA : Owner := Owner.new [0, 0, 0] [5, 7, 9]

/-- Owner `b` of `main`. -/
def ownerB : Owner := Owner.new [0, 2, 0] [1, 3, 4]

/-- The configuration `initial` of `main` (Scenario A). -/
def scenarioA : Configuration := Configuration.new [ownerA, ownerB] [5, 2, 3]

/-- Scenario A with the request of owner `b` raised to `[1, 3, 5]`. -/
def ownersRaised : Configuration :=
  Configuration.new [ownerA, Owner.new [0, 2, 0] [1, 3, 5]] [5, 2, 3]

/-- Three owners with one resource kind: the requests 1 and 2 can be granted
from the free pool 2, the request 100 never can. -/
def deadEnd : Configuration :=
  Configuration.new [Owner.new [0] [1], Owner.new [0] [2], Owner.new [0] [100]] [2]

/-- Owner `X` of Scenario D: its request exceeds the free pool `[3, 3]`. -/
def ownerX : Owner := Owner.new [0, 0] [5, 4]

/-- Owner `Y` of Scenario D: its request is covered by the free pool `[3, 3]`. -/
def ownerY : Owner := Owner.new [1, 2] [2, 3]

/-- Scenario D (chain dependency): `X` can be granted only after `Y` has
completed. -/
def scenarioD : Configuration := Configuration.new [ownerX, ownerY] [3, 3]

/-- A single owner that requires `2 ^ 31 + 1` units of the one resource kind
while none is free. -/
def impossibleDemand : Configuration :=
  Configuration.new [Owner.new [0] [2147483649]] [0]

/-! ## Resource-vector arithmetic and order -/

theorem Resources.add_sub_same (a b : Resources) (hlen : a.length = b.length)
    (ha : Resources.inRange a) (hb : Resources.inRange b) :
    Resources.add (Resources.sub a b) b = a := by
  induction a generalizing b with
  | nil => cases b <;> simp [Resources.sub, Resources.add]
  | cons x xs ih =>
    cases b with
    | nil => simp at hlen
    | cons y ys =>
      have hx : x < 4294967296 := ha x (List.mem_cons_self _ _)
      have hy : y < 4294967296 := hb y (List.mem_cons_self _ _)
      have hxs : Resources.inRange xs := fun z hz => ha z (List.mem_cons_of_mem _ hz)
      have hys : Resources.inRange ys := fun z hz => hb z (List.mem_cons_of_mem _ hz)
      have hl : xs.length = ys.length := by simpa using hlen
      simp only [Resources.sub, Resources.add, ih ys hl hxs hys, List.cons.injEq, and_true]
      omega

/-! ## Successors of a configuration -/

theorem PrioritisedOwnership.insert_perm (x : Owner) (l : PrioritisedOwnership) :
    (PrioritisedOwnership.insert x l).Perm (x :: l) := by
  induction l with
  | nil => exact List.Perm.refl _
  | cons y ys ih =>
    simp only [PrioritisedOwnership.insert]
    split
    · exact List.Perm.refl _
    · exact (List.Perm.cons y ih).trans (List.Perm.swap x y ys)

theorem PrioritisedOwnership.foldl_insert_perm (l : List Owner) (acc : PrioritisedOwnership) :
    (l.foldl (fun s o => PrioritisedOwnership.insert o s) acc).Perm (l ++ acc) := by
  induction l generalizing acc with
  | nil => exact List.Perm.refl _
  | cons x xs ih =>
    simp only [List.foldl_cons, List.cons_append]
    exact (ih _).trans ((List.Perm.append_left xs (PrioritisedOwnership.insert_perm x acc)).trans
      List.perm_middle)

theorem PrioritisedOwnership.ofRange_perm (l : List Owner) :
    (PrioritisedOwnership.ofRange l).Perm l := by
  have h := PrioritisedOwnership.foldl_insert_perm l []
  simpa [PrioritisedOwnership.ofRange] using h

theorem successorAt_eq_some (free : Resources) (l : List Owner) (i : Nat) (s : Configuration) :
    successorAt free l i = some s ↔
      ∃ o, l[i]? = some o ∧ o.isComplete = false ∧ Resources.lt free o.required = false ∧
        s = Configuration.new (l.set i o.allocate.2) (Resources.add free o.allocate.1) := by
  unfold successorAt
  cases h : l[i]? with
  | none => simp
  | some o =>
    simp only [Owner.getRequired, Option.some.injEq, exists_eq_left']
    by_cases hc : o.isComplete = true
    · simp [hc]
    · by_cases hl : Resources.lt free o.required = true
      · simp [hc, hl]
      · simp only [hc, hl, Bool.false_eq_true, if_false, Option.some.injEq]
        simp only [Bool.not_eq_true] at hc hl
        simp [hc, hl, eq_comm]

theorem step_iff (c c' : Configuration) :
    Step c c' ↔ ∃ i o, c.owned[i]? = some o ∧ o.isComplete = false ∧
      Resources.lt c.free o.required = false ∧
      c' = Configuration.new (c.owned.set i o.allocate.2) (Resources.add c.free o.allocate.1) := by
  unfold Step successors
  simp only [List.mem_filterMap, List.mem_range, Configuration.getFree, Configuration.getOwned,
    successorAt_eq_some]
  constructor
  · rintro ⟨i, _, o, h⟩
    exact ⟨i, o, h⟩
  · rintro ⟨i, o, h⟩
    refine ⟨i, ?_, o, h⟩
    have := h.1
    rw [List.getElem?_eq_some_iff] at this
    exact this.1

theorem countP_set_of_flip {α : Type} (p : α → Bool) (l : List α) (i : Nat) (o o' : α)
    (h : l[i]? = some o) (hp : p o = true) (hp' : p o' = false) :
    (l.set i o').countP p + 1 = l.countP p := by
  induction l generalizing i with
  | nil => simp at h
  | cons x xs ih =>
    cases i with
    | zero =>
      simp only [List.getElem?_cons_zero, Option.some.injEq] at h
      subst h
      simp [List.countP_cons, hp, hp']
    | succ j =>
      simp only [List.getElem?_cons_succ] at h
      have := ih j h
      simp only [List.set_cons_succ, List.countP_cons]
      omega

theorem incomplete_of_step (c c' : Configuration) (h : Step c c') :
    incomplete c' + 1 = incomplete c := by
  obtain ⟨i, o, hi, hc, _, rfl⟩ := (step_iff c c').1 h
  unfold incomplete
  simp only [Configuration.new]
  rw [(PrioritisedOwnership.ofRange_perm _).countP_eq]
  exact countP_set_of_flip _ c.owned i o _ hi (by simp [hc]) (by simp [Owner.allocate, Owner.isComplete])

theorem length_filterMap_range_le {α β : Type} (p : α → Bool) (l : List α) (g : Nat → Option β)
    (hg : ∀ i b, g i = some b → ∃ o, l[i]? = some o ∧ p o = true) :
    ((List.range l.length).filterMap g).length ≤ l.countP p := by
  induction l generalizing g with
  | nil => simp
  | cons x xs ih =>
    rw [List.length_cons, List.range_succ_eq_map, List.filterMap_cons, List.filterMap_map]
    have htail := ih (g ∘ Nat.succ) (fun i b hb => by
      obtain ⟨o, ho, hpo⟩ := hg (i + 1) b hb
      exact ⟨o, by simpa using ho, hpo⟩)
    cases h0 : g 0 with
    | none =>
      simp only
      exact le_trans htail (by simp [List.countP_cons])
    | some b =>
      obtain ⟨o, ho, hpo⟩ := hg 0 b h0
      simp only [List.getElem?_cons_zero, Option.some.injEq] at ho
      subst ho
      simp only [List.length_cons, List.countP_cons, hpo, if_true]
      omega

theorem successors_length_le (c : Configuration) : (successors c).length ≤ incomplete c := by
  unfold successors incomplete
  apply length_filterMap_range_le
  intro i b hb
  obtain ⟨o, ho, hc, _⟩ := (successorAt_eq_some _ _ _ _).1 hb
  exact ⟨o, ho, by simp [hc]⟩

/-! ## The search loop -/

theorem frontierWeight_perm {l l' : List Configuration} (h : l.Perm l') :
    frontierWeight l = frontierWeight l' :=
  (h.map _).sum_eq

theorem frontierWeight_cons (c : Configuration) (l : List Configuration) :
    frontierWeight (c :: l) = searchWeight (incomplete c) + frontierWeight l := by
  simp [frontierWeight]

theorem frontierWeight_append (l l' : List Configuration) :
    frontierWeight (l ++ l') = frontierWeight l + frontierWeight l' := by
  simp [frontierWeight]

theorem frontierWeight_successors_lt (c : Configuration) :
    frontierWeight (successors c) < searchWeight (incomplete c) := by
  cases hk : incomplete c with
  | zero =>
    have h := successors_length_le c
    rw [hk] at h
    have : successors c = [] := List.length_eq_zero.1 (by omega)
    simp [this, frontierWeight, searchWeight]
  | succ k =>
    have hle : frontierWeight (successors c) ≤ (successors c).length • searchWeight k := by
      have hsum := List.sum_le_card_nsmul
        ((successors c).map (fun c => searchWeight (incomplete c))) (searchWeight k) (by
          intro x hx
          obtain ⟨s, hs, rfl⟩ := List.mem_map.1 hx
          have := incomplete_of_step c s hs
          have hk' : incomplete s = k := by omega
          rw [hk'])
      rw [List.length_map] at hsum
      exact hsum
    have hlen := successors_length_le c
    rw [hk] at hlen
    have hmul : (successors c).length * searchWeight k ≤ (k + 1) * searchWeight k :=
      Nat.mul_le_mul_right _ hlen
    simp only [smul_eq_mul] at hle
    simp only [searchWeight]
    omega

theorem items_foldl_push (pq : PriorityQueue) (l : List Configuration) (q : pq.Q) :
    (pq.items (l.foldl pq.push q)).Perm (l ++ pq.items q) := by
  induction l generalizing q with
  | nil => exact List.Perm.refl _
  | cons x xs ih =>
    simp only [List.foldl_cons, List.cons_append]
    exact (ih _).trans ((List.Perm.append_left xs (pq.items_push q x)).trans List.perm_middle)

theorem isValidLoop_succ (pq : PriorityQueue) (fuel : Nat) (q : pq.Q) :
    isValidLoop pq (fuel + 1) q =
      match pq.pop? q with
      | none => some (false, [])
      | some (c, rest) =>
        if c.isComplete then some (true, [])
        else
          if (successors c).isEmpty then some ((pq.pop? rest).isSome, [c])
          else (isValidLoop pq fuel ((successors c).foldl pq.push rest)).map
            (fun r => (r.1, c :: r.2)) := rfl

theorem frontierWeight_after_expand (pq : PriorityQueue) (q rest : pq.Q) (c : Configuration)
    (hp : pq.pop? q = some (c, rest)) :
    frontierWeight (pq.items ((successors c).foldl pq.push rest)) < frontierWeight (pq.items q) := by
  rw [frontierWeight_perm (items_foldl_push pq _ rest), frontierWeight_append,
    frontierWeight_perm (pq.items_of_pop_some q c rest hp), frontierWeight_cons]
  have := frontierWeight_successors_lt c
  omega

theorem isValidLoop_terminates (pq : PriorityQueue) (fuel : Nat) (q : pq.Q)
    (h : frontierWeight (pq.items q) < fuel) : ∃ r, isValidLoop pq fuel q = some r := by
  induction fuel generalizing q with
  | zero => omega
  | succ n ih =>
    rw [isValidLoop_succ]
    cases hp : pq.pop? q with
    | none => exact ⟨_, rfl⟩
    | some p =>
      obtain ⟨c, rest⟩ := p
      simp only
      by_cases hc : c.isComplete = true
      · exact ⟨_, by rw [if_pos hc]⟩
      · rw [if_neg hc]
        by_cases he : (successors c).isEmpty = true
        · exact ⟨_, by rw [if_pos he]⟩
        · rw [if_neg he]
          have hw := frontierWeight_after_expand pq q rest c hp
          obtain ⟨r, hr⟩ := ih ((successors c).foldl pq.push rest) (by omega)
          exact ⟨_, by rw [hr]; rfl⟩

theorem isSome_pop_of_items_ne_nil (pq : PriorityQueue) (q : pq.Q) (h : pq.items q ≠ []) :
    (pq.pop? q).isSome = true := by
  cases hp : pq.pop? q with
  | none => exact absurd (pq.items_of_pop_none q hp) h
  | some p => rfl

theorem isValidLoop_true_of_two (pq : PriorityQueue) (fuel : Nat) (q : pq.Q)
    (h : frontierWeight (pq.items q) < fuel) (h2 : 2 ≤ (pq.items q).length) :
    ∃ t, isValidLoop pq fuel q = some (true, t) := by
  induction fuel generalizing q with
  | zero => omega
  | succ n ih =>
    rw [isValidLoop_succ]
    cases hp : pq.pop? q with
    | none =>
      have := pq.items_of_pop_none q hp
      rw [this] at h2
      simp at h2
    | some p =>
      obtain ⟨c, rest⟩ := p
      simp only
      have hperm := pq.items_of_pop_some q c rest hp
      have hlen : (pq.items q).length = (pq.items rest).length + 1 := by
        rw [hperm.length_eq]; rfl
      have hrest : pq.items rest ≠ [] := by
        intro h0
        rw [h0] at hlen
        simp at hlen
        omega
      by_cases hc : c.isComplete = true
      · exact ⟨_, by rw [if_pos hc]⟩
      · rw [if_neg hc]
        by_cases he : (successors c).isEmpty = true
        · rw [if_pos he, isSome_pop_of_items_ne_nil pq rest hrest]
          exact ⟨_, rfl⟩
        · rw [if_neg he]
          have hw := frontierWeight_after_expand pq q rest c hp
          have hl2 : 2 ≤ (pq.items ((successors c).foldl pq.push rest)).length := by
            rw [(items_foldl_push pq _ rest).length_eq, List.length_append]
            have h1 : 0 < (successors c).length := by
              cases hs : successors c with
              | nil => simp [hs] at he
              | cons x xs => simp
            omega
          obtain ⟨t, ht⟩ := ih ((successors c).foldl pq.push rest) (by omega) hl2
          exact ⟨_, by rw [ht]; rfl⟩


theorem pop_of_items_singleton (pq : PriorityQueue) (q : pq.Q) (c : Configuration)
    (hq : pq.items q = [c]) : ∃ rest, pq.pop? q = some (c, rest) ∧ pq.items rest = [] := by
  cases hp : pq.pop? q with
  | none =>
    have := pq.items_of_pop_none q hp
    rw [hq] at this
    simp at this
  | some p =>
    obtain ⟨c0, rest⟩ := p
    have hperm := pq.items_of_pop_some q c0 rest hp
    rw [hq] at hperm
    have heq := List.singleton_perm.1 hperm
    simp only [List.cons.injEq] at heq
    obtain ⟨h1, h2⟩ := heq
    subst h1
    exact ⟨rest, rfl, h2.symm⟩

theorem items_push_empty (pq : PriorityQueue) (c : Configuration) :
    pq.items (pq.push pq.empty c) = [c] := by
  have h := pq.items_push pq.empty c
  rw [pq.items_empty] at h
  exact List.perm_singleton.1 h

theorem isValidLoop_true_of_reachable (pq : PriorityQueue) (fuel : Nat) (q : pq.Q)
    (c : Configuration) (hq : pq.items q = [c]) (h : frontierWeight (pq.items q) < fuel)
    (hr : ∃ c', Reachable c c' ∧ c'.isComplete = true) :
    ∃ t, isValidLoop pq fuel q = some (true, t) := by
  induction fuel generalizing q c with
  | zero => omega
  | succ n ih =>
    obtain ⟨rest, hp, hrest⟩ := pop_of_items_singleton pq q c hq
    rw [isValidLoop_succ, hp]
    simp only
    by_cases hc : c.isComplete = true
    · exact ⟨_, by rw [if_pos hc]⟩
    · rw [if_neg hc]
      obtain ⟨c', hreach, hcompl⟩ := hr
      rcases Relation.ReflTransGen.cases_head hreach with heq | ⟨s, hstep, hrest'⟩
      · subst heq
        exact absurd hcompl hc
      · have hw := frontierWeight_after_expand pq q rest c hp
        have hperm := items_foldl_push pq (successors c) rest
        rw [hrest, List.append_nil] at hperm
        have hne : (successors c).isEmpty = false := by
          cases hs : successors c with
          | nil =>
            unfold Step at hstep
            rw [hs] at hstep
            simp at hstep
          | cons x xs => rfl
        rw [hne]
        simp only [Bool.false_eq_true, if_false]
        by_cases h2 : 2 ≤ (successors c).length
        · obtain ⟨t, ht⟩ := isValidLoop_true_of_two pq n ((successors c).foldl pq.push rest)
            (by omega) (by rw [hperm.length_eq]; exact h2)
          exact ⟨_, by rw [ht]; rfl⟩
        · have hone : successors c = [s] := by
            unfold Step at hstep
            cases hs : successors c with
            | nil => rw [hs] at hstep; simp at hstep
            | cons x xs =>
              rw [hs] at h2 hstep
              cases xs with
              | nil =>
                simp only [List.mem_singleton] at hstep
                rw [hstep]
              | cons y ys => simp at h2
          rw [hone] at hperm hw ⊢
          have hitems := List.perm_singleton.1 hperm
          obtain ⟨t, ht⟩ := ih _ s hitems (by omega) ⟨c', hrest', hcompl⟩
          exact ⟨_, by rw [ht]; rfl⟩

theorem frontierWeight_start (pq : PriorityQueue) (c : Configuration) :
    frontierWeight (pq.items (pq.push pq.empty c)) < searchWeight (incomplete c) + 1 := by
  rw [items_push_empty]
  simp [frontierWeight]

theorem isValidRun_terminates (pq : PriorityQueue) (c : Configuration) :
    ∃ r, isValidRun pq c = some r :=
  isValidLoop_terminates pq _ _ (frontierWeight_start pq c)

theorem isValidRun_true_of_reachable (pq : PriorityQueue) (c : Configuration)
    (hr : ∃ c', Reachable c c' ∧ c'.isComplete = true) :
    ∃ t, isValidRun pq c = some (true, t) :=
  isValidLoop_true_of_reachable pq _ _ c (items_push_empty pq c) (frontierWeight_start pq c) hr

theorem isValidRun_of_complete (pq : PriorityQueue) (c : Configuration)
    (hc : c.isComplete = true) : isValidRun pq c = some (true, []) := by
  obtain ⟨rest, hp, _⟩ := pop_of_items_singleton pq _ c (items_push_empty pq c)
  unfold isValidRun
  rw [isValidLoop_succ, hp]
  simp only
  rw [if_pos hc]

theorem isValidRun_of_stuck (pq : PriorityQueue) (c : Configuration)
    (hc : c.isComplete = false) (hs : successors c = []) :
    isValidRun pq c = some (false, [c]) := by
  obtain ⟨rest, hp, hrest⟩ := pop_of_items_singleton pq _ c (items_push_empty pq c)
  unfold isValidRun
  rw [isValidLoop_succ, hp]
  simp only
  rw [hc, hs]
  simp only [Bool.false_eq_true, if_false, List.isEmpty_nil, if_true]
  cases hp' : pq.pop? rest with
  | none => rfl
  | some p =>
    obtain ⟨c0, r0⟩ := p
    have := pq.items_of_pop_some rest c0 r0 hp'
    rw [hrest] at this
    simp at this

theorem isValidRun_true_of_two_successors (pq : PriorityQueue) (c : Configuration)
    (hc : c.isComplete = false) (h2 : 2 ≤ (successors c).length) :
    ∃ t, isValidRun pq c = some (true, t) := by
  obtain ⟨rest, hp, hrest⟩ := pop_of_items_singleton pq _ c (items_push_empty pq c)
  unfold isValidRun
  rw [isValidLoop_succ, hp]
  simp only
  have hne : (successors c).isEmpty = false := by
    cases hs : successors c with
    | nil => rw [hs] at h2; simp at h2
    | cons x xs => rfl
  rw [hc, hne]
  simp only [Bool.false_eq_true, if_false]
  have hw := frontierWeight_after_expand pq _ rest c hp
  have hs := frontierWeight_start pq c
  have hperm := items_foldl_push pq (successors c) rest
  obtain ⟨t, ht⟩ := isValidLoop_true_of_two pq (searchWeight (incomplete c))
    ((successors c).foldl pq.push rest) (by omega)
    (by rw [hperm.length_eq, List.length_append]; omega)
  exact ⟨_, by rw [ht]; rfl⟩

/-! ## Reachable configurations and constructors -/

theorem isValid_of_run {pq : PriorityQueue} {c : Configuration} {b : Bool}
    (h : ∃ t, isValidRun pq c = some (b, t)) : isValid pq c = some b := by
  obtain ⟨t, ht⟩ := h
  simp [isValid, ht]

theorem reachable_of_mem_reachableIn (n : Nat) (c x : Configuration)
    (h : x ∈ reachableIn n c) : Reachable c x := by
  induction n generalizing c with
  | zero =>
    simp only [reachableIn, List.mem_singleton] at h
    subst h
    exact Relation.ReflTransGen.refl
  | succ n ih =>
    simp only [reachableIn, List.mem_cons, List.mem_flatMap] at h
    rcases h with h | ⟨s, hs, hx⟩
    · subst h
      exact Relation.ReflTransGen.refl
    · exact Relation.ReflTransGen.head hs (ih s hx)

theorem mem_reachableIn_of_reachable (n : Nat) (c x : Configuration)
    (hn : incomplete c ≤ n) (h : Reachable c x) : x ∈ reachableIn n c := by
  induction n generalizing c with
  | zero =>
    rcases Relation.ReflTransGen.cases_head h with heq | ⟨s, hs, _⟩
    · subst heq
      simp [reachableIn]
    · have := incomplete_of_step c s hs
      omega
  | succ n ih =>
    simp only [reachableIn, List.mem_cons, List.mem_flatMap]
    rcases Relation.ReflTransGen.cases_head h with heq | ⟨s, hs, hrest⟩
    · exact Or.inl heq.symm
    · have := incomplete_of_step c s hs
      exact Or.inr ⟨s, hs, ih s (by omega) hrest⟩

theorem Owner.new_completed (owned required : Resources) :
    (Owner.new owned required).completed = required.all (fun elem => elem == 0) := by
  unfold Owner.new
  simp only
  suffices h : ∀ (acc : Bool), required.foldl
      (fun completed elem => if elem ≠ 0 then false else completed) acc =
      (acc && required.all (fun elem => elem == 0)) by
    simpa using h true
  induction required with
  | nil => simp
  | cons x xs ih =>
    intro acc
    simp only [List.foldl_cons, List.all_cons, ih]
    by_cases hx : x = 0
    · simp [hx]
    · simp [hx]

theorem Configuration.isComplete_new (owners : List Owner) (free : Resources) :
    (Configuration.new owners free).isComplete = owners.all (fun o => o.isComplete) := by
  unfold Configuration.isComplete Configuration.new
  simp only
  rw [Bool.eq_iff_iff, List.all_eq_true, List.all_eq_true]
  constructor
  · intro h o ho
    exact h o ((PrioritisedOwnership.ofRange_perm owners).mem_iff.2 ho)
  · intro h o ho
    exact h o ((PrioritisedOwnership.ofRange_perm owners).mem_iff.1 ho)

/-! ## Vector arithmetic and the shape of configurations -/

theorem Resources.length_add (a b : Resources) : (Resources.add a b).length = a.length := by
  induction a generalizing b with
  | nil => cases b <;> simp [Resources.add]
  | cons x xs ih =>
    cases b with
    | nil => simp [Resources.add]
    | cons y ys => simp [Resources.add, ih]

theorem Resources.getD_add (a b : Resources) (hlen : a.length = b.length) (j : Nat) :
    (Resources.add a b).getD j 0 = (a.getD j 0 + b.getD j 0) % 4294967296 := by
  induction a generalizing b j with
  | nil =>
    cases b with
    | nil => simp [Resources.add]
    | cons y ys => simp at hlen
  | cons x xs ih =>
    cases b with
    | nil => simp at hlen
    | cons y ys =>
      have hl : xs.length = ys.length := by simpa using hlen
      cases j with
      | zero => simp [Resources.add]
      | succ j =>
        simp only [Resources.add, List.getD_cons_succ]
        exact ih ys hl j

theorem Resources.inRange_add (a b : Resources) (hlen : a.length = b.length) :
    Resources.inRange (Resources.add a b) := by
  induction a generalizing b with
  | nil =>
    cases b with
    | nil => intro x hx; simp [Resources.add] at hx
    | cons y ys => simp at hlen
  | cons x xs ih =>
    cases b with
    | nil => simp at hlen
    | cons y ys =>
      have hl : xs.length = ys.length := by simpa using hlen
      intro z hz
      simp only [Resources.add, List.mem_cons] at hz
      rcases hz with hz | hz
      · subst hz
        exact Nat.mod_lt _ (by norm_num)
      · exact ih ys hl z hz

theorem length_zero (v : Resources) : (zero v).length = v.length := by
  simp [zero]

theorem inRange_zero (v : Resources) : Resources.inRange (zero v) := by
  intro x hx
  simp only [zero, List.mem_map] at hx
  obtain ⟨_, _, rfl⟩ := hx
  norm_num

theorem getD_zero (v : Resources) (j : Nat) : (zero v).getD j 0 = 0 := by
  induction v generalizing j with
  | nil => simp [zero]
  | cons x xs ih =>
    cases j with
    | zero => simp [zero]
    | succ j => simp [zero]

theorem Resources.lt_eq_false_of_dominates (a b : Resources) (hlen : a.length = b.length)
    (ha : ∀ j, j < a.length → a.getD j 0 < 2147483648) (hdom : Dominates a b) :
    Resources.lt a b = false := by
  induction a generalizing b with
  | nil => cases b <;> simp [Resources.lt]
  | cons x xs ih =>
    cases b with
    | nil => simp [Resources.lt]
    | cons y ys =>
      have hl : xs.length = ys.length := by simpa using hlen
      have hx : x < 2147483648 := by simpa using ha 0 (by simp)
      have hyx : y ≤ x := by simpa using hdom 0 (by simp)
      have htail := ih ys hl
        (fun j hj => by simpa using ha (j + 1) (by simpa using hj))
        (fun j hj => by simpa using hdom (j + 1) (by simpa using hj))
      have hmod : (x + 4294967296 - y) % 4294967296 = x - y := by omega
      simp only [Resources.lt, hmod, htail]
      have hs : toSigned (x - y) = ((x - y : Nat) : Int) := by
        unfold toSigned
        rw [if_pos (by omega)]
      rw [hs]
      split
      · simp only [decide_eq_false_iff_not, not_lt]
        exact Int.ofNat_nonneg _
      · rfl

theorem wellFormed_of_step (k : Nat) (c c' : Configuration)
    (hwf : Configuration.WellFormed k c) (h : Step c c') : Configuration.WellFormed k c' := by
  obtain ⟨i, o, hi, _, _, rfl⟩ := (step_iff c c').1 h
  obtain ⟨hne, hfl, hfr, how⟩ := hwf
  have hmem : o ∈ c.owned := List.getElem?_mem hi
  obtain ⟨ho1, ho2, ho3, ho4⟩ := how o hmem
  have hperm := PrioritisedOwnership.ofRange_perm (c.owned.set i o.allocate.2)
  refine ⟨?_, ?_, ?_, ?_⟩
  · intro h0
    have hlen := hperm.length_eq
    simp only [Configuration.new] at h0
    rw [h0] at hlen
    simp only [List.length_nil, List.length_set] at hlen
    exact hne (List.length_eq_zero.1 hlen.symm)
  · simp only [Configuration.new, Resources.length_add]
    exact hfl
  · simp only [Configuration.new, Owner.allocate]
    apply Resources.inRange_add
    rw [hfl, Resources.length_add, ho2]
  · intro o' ho'
    simp only [Configuration.new] at ho'
    have hin := hperm.mem_iff.1 ho'
    rcases List.mem_or_eq_of_mem_set hin with hold | hnew
    · exact how o' hold
    · subst hnew
      simp only [Owner.allocate, length_zero]
      exact ⟨ho1, ho2, inRange_zero _, inRange_zero _⟩

theorem wellFormed_of_reachable (k : Nat) (c c' : Configuration)
    (hwf : Configuration.WellFormed k c) (h : Reachable c c') :
    Configuration.WellFormed k c' := by
  induction h with
  | refl => exact hwf
  | tail _ hstep ih => exact wellFormed_of_step k _ _ ih hstep

/-! ## Granting requests in a safe order -/

theorem sum_map_set {α : Type} (f : α → Nat) (l : List α) (i : Nat) (o o' : α)
    (h : l[i]? = some o) :
    ((l.set i o').map f).sum + f o = (l.map f).sum + f o' := by
  induction l generalizing i with
  | nil => simp at h
  | cons x xs ih =>
    cases i with
    | zero =>
      simp only [List.getElem?_cons_zero, Option.some.injEq] at h
      subst h
      simp only [List.set_cons_zero, List.map_cons, List.sum_cons]
      omega
    | succ j =>
      simp only [List.getElem?_cons_succ] at h
      have := ih j h
      simp only [List.set_cons_succ, List.map_cons, List.sum_cons]
      omega

theorem filter_set_perm {α : Type} (p : α → Bool) (l : List α) (i : Nat) (o o' : α)
    (h : l[i]? = some o) (hp : p o = true) (hp' : p o' = false) :
    (o :: (l.set i o').filter p).Perm (l.filter p) := by
  induction l generalizing i with
  | nil => simp at h
  | cons x xs ih =>
    cases i with
    | zero =>
      simp only [List.getElem?_cons_zero, Option.some.injEq] at h
      subst h
      simp [List.filter_cons, hp, hp']
    | succ j =>
      simp only [List.getElem?_cons_succ] at h
      have := ih j h
      simp only [List.set_cons_succ, List.filter_cons]
      split
      · exact (List.Perm.swap _ _ _).trans (List.Perm.cons x this)
      · exact this

theorem SafeOrder.congr (k : Nat) (pool pool' : Nat → Nat) (os : List Owner)
    (h : ∀ j, j < k → pool j = pool' j) (hs : SafeOrder k pool os) : SafeOrder k pool' os := by
  induction os generalizing pool pool' with
  | nil => trivial
  | cons o os ih =>
    obtain ⟨h1, h2⟩ := hs
    refine ⟨fun j hj => ?_, ih _ _ (fun j hj => ?_) h2⟩
    · rw [← h j hj]
      exact h1 j hj
    · simp only [h j hj]

theorem exists_complete_of_safeOrder (k : Nat) (order : List Owner) (c : Configuration)
    (hwf : Configuration.WellFormed k c)
    (hbound : ∀ j, j < k → c.free.getD j 0 +
      (c.owned.map (fun o => o.owned.getD j 0 + o.required.getD j 0)).sum < 2147483648)
    (hperm : order.Perm (c.owned.filter (fun o => !o.isComplete)))
    (hsafe : SafeOrder k (fun j => c.free.getD j 0) order) :
    ∃ c', Reachable c c' ∧ c'.isComplete = true := by
  induction order generalizing c with
  | nil =>
    refine ⟨c, Relation.ReflTransGen.refl, ?_⟩
    have hnil := List.nil_perm.1 hperm
    rw [Configuration.isComplete, List.all_eq_true]
    intro o ho
    by_contra hc
    have : o ∈ c.owned.filter (fun o => !o.isComplete) := by
      simp [List.mem_filter, ho, hc]
    rw [hnil] at this
    simp at this
  | cons o os ih =>
    obtain ⟨hdom, hrest⟩ := hsafe
    have hof : o ∈ c.owned.filter (fun o => !o.isComplete) := hperm.mem_iff.1 (by simp)
    obtain ⟨hmem, hinc⟩ := List.mem_filter.1 hof
    have hinc' : o.isComplete = false := by simpa using hinc
    obtain ⟨i, hi⟩ := List.getElem?_of_mem hmem
    obtain ⟨hne, hfl, hfr, how⟩ := hwf
    obtain ⟨ho1, ho2, ho3, ho4⟩ := how o hmem
    -- the request of `o` is not less than the free pool
    have hlt : Resources.lt c.free o.required = false := by
      apply Resources.lt_eq_false_of_dominates
      · rw [hfl, ho2]
      · intro j hj
        have := hbound j (by omega)
        omega
      · intro j hj
        exact hdom j (by omega)
    let c1 := Configuration.new (c.owned.set i o.allocate.2) (Resources.add c.free o.allocate.1)
    have hstep : Step c c1 := (step_iff c c1).2 ⟨i, o, hi, hinc', hlt, rfl⟩
    have hwf1 : Configuration.WellFormed k c1 :=
      wellFormed_of_step k c c1 ⟨hne, hfl, hfr, how⟩ hstep
    have hperm1 := PrioritisedOwnership.ofRange_perm (c.owned.set i o.allocate.2)
    have hsum := fun j => sum_map_set
      (fun o => o.owned.getD j 0 + o.required.getD j 0) c.owned i o o.allocate.2 hi
    have hzero : ∀ j, o.allocate.2.owned.getD j 0 + o.allocate.2.required.getD j 0 = 0 := by
      intro j
      simp only [Owner.allocate, getD_zero]
    have hosum : ∀ j, o.owned.getD j 0 + o.required.getD j 0 ≤
        (c.owned.map (fun o => o.owned.getD j 0 + o.required.getD j 0)).sum := by
      intro j
      have := hsum j
      rw [hzero j] at this
      omega
    -- the free pool of the successor, without wrap-around
    have hfree : ∀ j, j < k → c1.free.getD j 0 =
        c.free.getD j 0 + o.owned.getD j 0 + o.required.getD j 0 := by
      intro j hj
      have hb := hbound j hj
      have hos := hosum j
      show (Resources.add c.free (Resources.add o.required o.owned)).getD j 0 = _
      rw [Resources.getD_add _ _ (by rw [hfl, Resources.length_add, ho2]),
        Resources.getD_add _ _ (by rw [ho1, ho2])]
      omega
    have hbound1 : ∀ j, j < k → c1.free.getD j 0 +
        (c1.owned.map (fun o => o.owned.getD j 0 + o.required.getD j 0)).sum < 2147483648 := by
      intro j hj
      have hb := hbound j hj
      have hs := hsum j
      rw [hzero j] at hs
      have hp : (c1.owned.map (fun o => o.owned.getD j 0 + o.required.getD j 0)).sum =
          ((c.owned.set i o.allocate.2).map
            (fun o => o.owned.getD j 0 + o.required.getD j 0)).sum :=
        (hperm1.map _).sum_eq
      rw [hfree j hj, hp]
      omega
    have hpermos : os.Perm (c1.owned.filter (fun o => !o.isComplete)) := by
      have h1 := filter_set_perm (fun o => !o.isComplete) c.owned i o o.allocate.2 hi
        (by simp [hinc']) (by simp [Owner.allocate, Owner.isComplete])
      have h2 := (hperm.trans h1.symm).cons_inv
      exact h2.trans (hperm1.filter _).symm
    have hsafe1 : SafeOrder k (fun j => c1.free.getD j 0) os :=
      SafeOrder.congr k _ _ os (fun j hj => (hfree j hj).symm) hrest
    obtain ⟨c', hreach, hcompl⟩ := ih c1 hwf1 hbound1 hpermos hsafe1
    exact ⟨c', Relation.ReflTransGen.head hstep hreach, hcompl⟩

/-! ## The order test and the expanded configurations -/

theorem toSigned_eq_zero (w : Nat) (hw : w < 4294967296) : toSigned w = 0 ↔ w = 0 := by
  unfold toSigned
  split <;> omega

theorem wrapped_difference_eq_zero (x y : Nat) (hx : x < 4294967296) (hy : y < 4294967296) :
    (x + 4294967296 - y) % 4294967296 = 0 ↔ x = y := by
  omega

theorem Resources.lt_eq_false_iff (a b : Resources) (hlen : a.length = b.length)
    (ha : Resources.inRange a) (hb : Resources.inRange b) :
    Resources.lt a b = false ↔
      ∀ n, n < a.length → (∀ j, j < n → a.getD j 0 = b.getD j 0) →
        0 ≤ toSigned ((a.getD n 0 + 4294967296 - b.getD n 0) % 4294967296) := by
  induction a generalizing b with
  | nil => cases b <;> simp [Resources.lt]
  | cons x xs ih =>
    cases b with
    | nil => simp at hlen
    | cons y ys =>
      have hx : x < 4294967296 := ha x (List.mem_cons_self _ _)
      have hy : y < 4294967296 := hb y (List.mem_cons_self _ _)
      have hxs : Resources.inRange xs := fun z hz => ha z (List.mem_cons_of_mem _ hz)
      have hys : Resources.inRange ys := fun z hz => hb z (List.mem_cons_of_mem _ hz)
      have hl : xs.length = ys.length := by simpa using hlen
      have hd : (x + 4294967296 - y) % 4294967296 < 4294967296 := Nat.mod_lt _ (by norm_num)
      have hz := toSigned_eq_zero _ hd
      have hxy := wrapped_difference_eq_zero x y hx hy
      simp only [Resources.lt]
      by_cases hr : toSigned ((x + 4294967296 - y) % 4294967296) = 0
      · have hxy' : x = y := hxy.1 (hz.1 hr)
        rw [if_neg (not_not.2 hr), ih ys hl hxs hys]
        constructor
        · intro h n hn hpre
          cases n with
          | zero => simpa using le_of_eq hr.symm
          | succ n =>
            simp only [List.getD_cons_succ]
            exact h n (by simpa using hn) (fun j hj => by simpa using hpre (j + 1) (by omega))
        · intro h n hn hpre
          have := h (n + 1) (by simpa using hn) (fun j hj => by
            cases j with
            | zero => simpa using hxy'
            | succ j => simpa using hpre j (by omega))
          simpa using this
      · rw [if_pos hr]
        constructor
        · intro h n hn hpre
          cases n with
          | zero =>
            simp only [List.getD_cons_zero]
            simpa using h
          | succ n =>
            have h0 := hpre 0 (by omega)
            simp only [List.getD_cons_zero] at h0
            exact absurd (hz.2 (hxy.2 h0)) hr
        · intro h
          have := h 0 (by simp) (fun j hj => by omega)
          simpa using this

theorem isValidLoop_expanded_invariant (pq : PriorityQueue) (P : Configuration → Prop)
    (hP : ∀ c c', P c → Step c c' → P c') (fuel : Nat) (q : pq.Q)
    (r : Bool × List Configuration) (hq : ∀ x ∈ pq.items q, P x)
    (hrun : isValidLoop pq fuel q = some r) : ∀ c ∈ r.2, P c := by
  induction fuel generalizing q r with
  | zero => simp [isValidLoop] at hrun
  | succ n ih =>
    rw [isValidLoop_succ] at hrun
    cases hp : pq.pop? q with
    | none =>
      rw [hp] at hrun
      simp only [Option.some.injEq] at hrun
      subst hrun
      simp
    | some p =>
      obtain ⟨c, rest⟩ := p
      rw [hp] at hrun
      simp only at hrun
      have hperm := pq.items_of_pop_some q c rest hp
      have hPc : P c := hq c (hperm.mem_iff.2 (List.mem_cons_self _ _))
      have hrestP : ∀ x ∈ pq.items rest, P x :=
        fun x hx => hq x (hperm.mem_iff.2 (List.mem_cons_of_mem _ hx))
      by_cases hc : c.isComplete = true
      · rw [if_pos hc] at hrun
        simp only [Option.some.injEq] at hrun
        subst hrun
        simp
      · rw [if_neg hc] at hrun
        by_cases he : (successors c).isEmpty = true
        · rw [if_pos he] at hrun
          simp only [Option.some.injEq] at hrun
          subst hrun
          simpa using hPc
        · rw [if_neg he] at hrun
          cases hrec : isValidLoop pq n ((successors c).foldl pq.push rest) with
          | none => simp [hrec] at hrun
          | some r' =>
            rw [hrec] at hrun
            simp only [Option.map_some', Option.some.injEq] at hrun
            subst hrun
            have hnew : ∀ x ∈ pq.items ((successors c).foldl pq.push rest), P x := by
              intro x hx
              have := (items_foldl_push pq (successors c) rest).mem_iff.1 hx
              rcases List.mem_append.1 this with h1 | h1
              · exact hP c x hPc h1
              · exact hrestP x h1
            intro x hx
            simp only [List.mem_cons] at hx
            rcases hx with hx | hx
            · subst hx
              exact hPc
            · exact ih _ r' hnew hrec x hx

theorem expanded_invariant (pq : PriorityQueue) (P : Configuration → Prop)
    (hP : ∀ c c', P c → Step c c' → P c') (start : Configuration) (hstart : P start)
    (t : List Configuration) (hrun : expanded pq start = some t) : ∀ c ∈ t, P c := by
  unfold expanded at hrun
  cases hr : isValidRun pq start with
  | none => simp [hr] at hrun
  | some r =>
    rw [hr] at hrun
    simp only [Option.map_some', Option.some.injEq] at hrun
    subst hrun
    apply isValidLoop_expanded_invariant pq P hP _ _ r _ hr
    intro x hx
    rw [items_push_empty] at hx
    simp only [List.mem_singleton] at hx
    subst hx
    exact hstart

/-! ## The order on counts below 2 ^ 31 -/

theorem toSigned_wrapped_difference (x y : Nat) (hx : x < 2147483648) (hy : y < 2147483648) :
    toSigned ((x + 4294967296 - y) % 4294967296) = (x : Int) - (y : Int) := by
  unfold toSigned
  split <;> omega

theorem Resources.lt_cons_of_small (x y : Nat) (xs ys : Resources)
    (hx : x < 2147483648) (hy : y < 2147483648) :
    Resources.lt (x :: xs) (y :: ys) = if x = y then Resources.lt xs ys else decide (x < y) := by
  simp only [Resources.lt, toSigned_wrapped_difference x y hx hy]
  by_cases hxy : x = y
  · simp [hxy]
  · have hne : ¬ ((x : Int) - (y : Int) = 0) := by omega
    rw [if_pos hne, if_neg hxy]
    by_cases hlt : x < y
    · have : (x : Int) - (y : Int) < 0 := by omega
      simp [hlt, this]
    · have : ¬ ((x : Int) - (y : Int) < 0) := by omega
      simp [hlt, this]

theorem Resources.lt_iff_lexLess_of_small (a b : Resources) (hlen : a.length = b.length)
    (ha : ∀ x ∈ a, x < 2147483648) (hb : ∀ x ∈ b, x < 2147483648) :
    Resources.lt a b = true ↔ LexLess a b := by
  induction a generalizing b with
  | nil =>
    cases b with
    | nil => simp [Resources.lt, LexLess]
    | cons y ys => simp at hlen
  | cons x xs ih =>
    cases b with
    | nil => simp at hlen
    | cons y ys =>
      have hx : x < 2147483648 := ha x (List.mem_cons_self _ _)
      have hy : y < 2147483648 := hb y (List.mem_cons_self _ _)
      have hxs : ∀ z ∈ xs, z < 2147483648 := fun z hz => ha z (List.mem_cons_of_mem _ hz)
      have hys : ∀ z ∈ ys, z < 2147483648 := fun z hz => hb z (List.mem_cons_of_mem _ hz)
      have hl : xs.length = ys.length := by simpa using hlen
      rw [Resources.lt_cons_of_small x y xs ys hx hy]
      by_cases hxy : x = y
      · subst hxy
        rw [if_pos rfl, ih ys hl hxs hys]
        constructor
        · rintro ⟨i, h1, h2, h3, h4⟩
          refine ⟨i + 1, by simpa using h1, by simpa using h2, ?_, by simpa using h4⟩
          intro j hj
          cases j with
          | zero => simp
          | succ j => simpa using h3 j (by omega)
        · rintro ⟨i, h1, h2, h3, h4⟩
          cases i with
          | zero => simp at h4
          | succ i =>
            refine ⟨i, by simpa using h1, by simpa using h2, ?_, by simpa using h4⟩
            intro j hj
            simpa using h3 (j + 1) (by omega)
      · rw [if_neg hxy]
        simp only [decide_eq_true_eq]
        constructor
        · intro hlt
          exact ⟨0, by simp, by simp, fun j hj => by omega, by simpa using hlt⟩
        · rintro ⟨i, h1, h2, h3, h4⟩
          cases i with
          | zero => simpa using h4
          | succ i =>
            have := h3 0 (by omega)
            simp only [List.getD_cons_zero] at this
            exact absurd this hxy

theorem Resources.lt_irrefl (a : Resources) : Resources.lt a a = false := by
  induction a with
  | nil => rfl
  | cons x xs ih =>
    have h0 : (x + 4294967296 - x) % 4294967296 = 0 := by omega
    simp [Resources.lt, h0, toSigned, ih]

theorem Resources.lt_trans_of_small (a b c : Resources) (hab : a.length = b.length)
    (hbc : b.length = c.length)
    (ha : ∀ x ∈ a, x < 2147483648) (hb : ∀ x ∈ b, x < 2147483648)
    (hc : ∀ x ∈ c, x < 2147483648)
    (h1 : Resources.lt a b = true) (h2 : Resources.lt b c = true) :
    Resources.lt a c = true := by
  induction a generalizing b c with
  | nil => cases b <;> simp [Resources.lt] at h1
  | cons x xs ih =>
    cases b with
    | nil => simp at hab
    | cons y ys =>
      cases c with
      | nil => simp at hbc
      | cons z zs =>
        have hx : x < 2147483648 := ha x (List.mem_cons_self _ _)
        have hy : y < 2147483648 := hb y (List.mem_cons_self _ _)
        have hz : z < 2147483648 := hc z (List.mem_cons_self _ _)
        rw [Resources.lt_cons_of_small x y xs ys hx hy] at h1
        rw [Resources.lt_cons_of_small y z ys zs hy hz] at h2
        rw [Resources.lt_cons_of_small x z xs zs hx hz]
        by_cases hxy : x = y
        · subst hxy
          rw [if_pos rfl] at h1
          by_cases hxz : x = z
          · subst hxz
            rw [if_pos rfl] at h2 ⊢
            exact ih ys zs (by simpa using hab) (by simpa using hbc)
              (fun w hw => ha w (List.mem_cons_of_mem _ hw))
              (fun w hw => hb w (List.mem_cons_of_mem _ hw))
              (fun w hw => hc w (List.mem_cons_of_mem _ hw)) h1 h2
          · rw [if_neg hxz] at h2 ⊢
            exact h2
        · rw [if_neg hxy] at h1
          simp only [decide_eq_true_eq] at h1
          by_cases hyz : y = z
          · subst hyz
            rw [if_neg hxy]
            simpa using h1
          · rw [if_neg hyz] at h2
            simp only [decide_eq_true_eq] at h2
            have hxz : x ≠ z := by omega
            rw [if_neg hxz]
            simp only [decide_eq_true_eq]
            omega

theorem Resources.lt_total_of_small (a b : Resources) (hlen : a.length = b.length)
    (ha : ∀ x ∈ a, x < 2147483648) (hb : ∀ x ∈ b, x < 2147483648) :
    Resources.lt a b = true ∨ a = b ∨ Resources.lt b a = true := by
  induction a generalizing b with
  | nil =>
    cases b with
    | nil => exact Or.inr (Or.inl rfl)
    | cons y ys => simp at hlen
  | cons x xs ih =>
    cases b with
    | nil => simp at hlen
    | cons y ys =>
      have hx : x < 2147483648 := ha x (List.mem_cons_self _ _)
      have hy : y < 2147483648 := hb y (List.mem_cons_self _ _)
      rw [Resources.lt_cons_of_small x y xs ys hx hy, Resources.lt_cons_of_small y x ys xs hy hx]
      by_cases hxy : x = y
      · subst hxy
        simp only [if_true, List.cons.injEq, true_and]
        exact ih ys (by simpa using hlen)
          (fun w hw => ha w (List.mem_cons_of_mem _ hw))
          (fun w hw => hb w (List.mem_cons_of_mem _ hw))
      · have hyx : ¬ y = x := fun h => hxy h.symm
        rw [if_neg hxy, if_neg hyx]
        simp only [decide_eq_true_eq]
        omega

theorem Resources.lt_asymm_of_small (a b : Resources) (hlen : a.length = b.length)
    (ha : ∀ x ∈ a, x < 2147483648) (hb : ∀ x ∈ b, x < 2147483648)
    (h : Resources.lt a b = true) : Resources.lt b a = false := by
  cases hba : Resources.lt b a with
  | false => rfl
  | true =>
    have := Resources.lt_trans_of_small a b a hlen hlen.symm ha hb ha h hba
    rw [Resources.lt_irrefl] at this
    exact absurd this (by simp)

/-! ## Owners and their order -/

theorem zero_eq_replicate (v : Resources) : zero v = List.replicate v.length 0 := by
  induction v with
  | nil => rfl
  | cons x xs ih =>
    simp only [zero, List.map_cons, List.length_cons, List.replicate_succ, List.cons.injEq,
      true_and]
    exact ih

theorem PrioritisedOwnership.lt_iff_ownersPrecede (l r : PrioritisedOwnership) :
    PrioritisedOwnership.lt l r = true ↔ OwnersPrecede l r := by
  induction l generalizing r with
  | nil =>
    simp only [PrioritisedOwnership.lt, Bool.false_eq_true, false_iff]
    rintro ⟨i, x, y, h, _⟩
    simp at h
  | cons a as ih =>
    cases r with
    | nil =>
      simp only [PrioritisedOwnership.lt, Bool.false_eq_true, false_iff]
      rintro ⟨i, x, y, _, h, _⟩
      simp at h
    | cons b bs =>
      simp only [PrioritisedOwnership.lt]
      by_cases hab : Owner.lt a b = true
      · rw [if_pos hab]
        simp only [true_iff]
        exact ⟨0, a, b, by simp, by simp, hab, fun j u v hj => by omega⟩
      · rw [if_neg hab]
        by_cases hba : Owner.lt b a = true
        · rw [if_pos hba]
          simp only [Bool.false_eq_true, false_iff]
          rintro ⟨i, x, y, hx, hy, hxy, hpre⟩
          cases i with
          | zero =>
            simp only [List.getElem?_cons_zero, Option.some.injEq] at hx hy
            subst hx
            subst hy
            exact hab hxy
          | succ i =>
            have := (hpre 0 a b (by omega) (by simp) (by simp)).2
            rw [hba] at this
            exact absurd this (by simp)
        · rw [if_neg hba, ih bs]
          simp only [Bool.not_eq_true] at hab hba
          constructor
          · rintro ⟨i, x, y, hx, hy, hxy, hpre⟩
            refine ⟨i + 1, x, y, by simpa using hx, by simpa using hy, hxy, ?_⟩
            intro j u v hj hu hv
            cases j with
            | zero =>
              simp only [List.getElem?_cons_zero, Option.some.injEq] at hu hv
              subst hu
              subst hv
              exact ⟨hab, hba⟩
            | succ j =>
              exact hpre j u v (by omega) (by simpa using hu) (by simpa using hv)
          · rintro ⟨i, x, y, hx, hy, hxy, hpre⟩
            cases i with
            | zero =>
              simp only [List.getElem?_cons_zero, Option.some.injEq] at hx hy
              subst hx
              subst hy
              rw [hab] at hxy
              exact absurd hxy (by simp)
            | succ i =>
              refine ⟨i, x, y, by simpa using hx, by simpa using hy, hxy, ?_⟩
              intro j u v hj hu hv
              exact hpre (j + 1) u v (by omega) (by simpa using hu) (by simpa using hv)

theorem PrioritisedOwnership.lt_map_owned (f g : Owner → Resources)
    (l r : PrioritisedOwnership) :
    PrioritisedOwnership.lt (l.map (fun o => { o with owned := f o }))
        (r.map (fun o => { o with owned := g o })) = PrioritisedOwnership.lt l r := by
  induction l generalizing r with
  | nil => simp [PrioritisedOwnership.lt]
  | cons a as ih =>
    cases r with
    | nil => simp [PrioritisedOwnership.lt]
    | cons b bs =>
      simp only [List.map_cons, PrioritisedOwnership.lt, ih bs, Owner.lt]

/-! ## The assertions on well-formed configurations -/

theorem Resources.add?_eq_some (a b : Resources) (h : a.length = b.length) :
    Resources.add? a b = some (Resources.add a b) := by
  simp [Resources.add?, h]

theorem Resources.lt?_eq_some (a b : Resources) (h : a.length = b.length) :
    Resources.lt? a b = some (Resources.lt a b) := by
  simp [Resources.lt?, h]

theorem Owner.ownerLt?_eq_some (x y : Owner) (h : x.required.length = y.required.length) :
    Owner.lt? x y = some (Owner.lt x y) := by
  unfold Owner.lt? Owner.lt
  rw [if_pos h]
  split
  · rfl
  · exact Resources.lt?_eq_some _ _ h

theorem Owner.allocate?_eq_some (o : Owner) (h : o.owned.length = o.required.length) :
    o.allocate? = some o.allocate := by
  simp [Owner.allocate?, Owner.allocate, Resources.add?_eq_some _ _ h.symm]

theorem PrioritisedOwnership.insert?_eq_some (x : Owner) (l : PrioritisedOwnership)
    (h : ∀ y ∈ l, x.required.length = y.required.length) :
    PrioritisedOwnership.insert? x l = some (PrioritisedOwnership.insert x l) := by
  induction l with
  | nil => rfl
  | cons y ys ih =>
    have hy := h y (List.mem_cons_self _ _)
    have hys := ih (fun z hz => h z (List.mem_cons_of_mem _ hz))
    simp only [PrioritisedOwnership.insert?, PrioritisedOwnership.insert,
      Owner.ownerLt?_eq_some x y hy, hys]
    cases Owner.lt x y <;> simp

theorem PrioritisedOwnership.foldl_insert?_eq_some (k : Nat) (l : List Owner)
    (acc : PrioritisedOwnership) (hl : ∀ o ∈ l, o.required.length = k)
    (hacc : ∀ o ∈ acc, o.required.length = k) :
    l.foldl (fun s o => s.bind (PrioritisedOwnership.insert? o)) (some acc) =
      some (l.foldl (fun s o => PrioritisedOwnership.insert o s) acc) := by
  induction l generalizing acc with
  | nil => rfl
  | cons x xs ih =>
    have hx := hl x (List.mem_cons_self _ _)
    have hins := PrioritisedOwnership.insert?_eq_some x acc
      (fun y hy => by rw [hx, hacc y hy])
    simp only [List.foldl_cons, Option.some_bind, hins]
    apply ih _ (fun o ho => hl o (List.mem_cons_of_mem _ ho))
    intro o ho
    rcases List.mem_cons.1 ((PrioritisedOwnership.insert_perm x acc).mem_iff.1 ho) with h | h
    · rw [h]; exact hx
    · exact hacc o h

theorem PrioritisedOwnership.ofRange?_eq_some (k : Nat) (l : List Owner)
    (hl : ∀ o ∈ l, o.required.length = k) :
    PrioritisedOwnership.ofRange? l = some (PrioritisedOwnership.ofRange l) :=
  PrioritisedOwnership.foldl_insert?_eq_some k l [] hl (fun o ho => by simp at ho)

theorem PrioritisedOwnership.ltLoop?_eq_some (k : Nat) (l r : PrioritisedOwnership)
    (hl : ∀ o ∈ l, o.required.length = k) (hr : ∀ o ∈ r, o.required.length = k) :
    PrioritisedOwnership.ltLoop? l r = some (PrioritisedOwnership.lt l r) := by
  induction l generalizing r with
  | nil => simp [PrioritisedOwnership.ltLoop?, PrioritisedOwnership.lt]
  | cons a as ih =>
    cases r with
    | nil => simp [PrioritisedOwnership.ltLoop?, PrioritisedOwnership.lt]
    | cons b bs =>
      have ha := hl a (List.mem_cons_self _ _)
      have hb := hr b (List.mem_cons_self _ _)
      have htail := ih bs (fun o ho => hl o (List.mem_cons_of_mem _ ho))
        (fun o ho => hr o (List.mem_cons_of_mem _ ho))
      simp only [PrioritisedOwnership.ltLoop?, PrioritisedOwnership.lt,
        Owner.ownerLt?_eq_some a b (by rw [ha, hb]), Owner.ownerLt?_eq_some b a (by rw [ha, hb]), htail]
      cases Owner.lt a b <;> cases Owner.lt b a <;> simp

theorem Configuration.new?_eq_some (k : Nat) (l : List Owner) (free : Resources)
    (hne : l ≠ []) (hl : ∀ o ∈ l, o.required.length = k) :
    Configuration.new? l free = some (Configuration.new l free) := by
  have hpos : l.length > 0 := List.length_pos.2 hne
  simp [Configuration.new?, Configuration.new, PrioritisedOwnership.ofRange?_eq_some k l hl, hpos]

theorem Configuration.gt?_eq_some (k : Nat) (c other : Configuration)
    (hc : Configuration.WellFormed k c) (ho : Configuration.WellFormed k other)
    (hn : c.owned.length = other.owned.length) :
    Configuration.gt? c other = some (Configuration.gt c other) := by
  obtain ⟨_, hcf, _, hcw⟩ := hc
  obtain ⟨_, hof, _, how⟩ := ho
  have h1 := Resources.lt?_eq_some other.free c.free (by rw [hcf, hof])
  have h2 := Resources.lt?_eq_some c.free other.free (by rw [hcf, hof])
  have h3 := PrioritisedOwnership.ltLoop?_eq_some k other.owned c.owned
    (fun o h => (how o h).2.1) (fun o h => (hcw o h).2.1)
  simp only [Configuration.gt?, Configuration.gt, if_pos hn, h1, h2,
    PrioritisedOwnership.lt?, if_pos hn.symm, h3]
  cases Resources.lt other.free c.free <;> cases Resources.lt c.free other.free <;> simp

theorem successorAt?_eq_some (k : Nat) (c : Configuration)
    (hwf : Configuration.WellFormed k c) (i : Nat) :
    successorAt? c.getFree c.getOwned i = some (successorAt c.getFree c.getOwned i) := by
  obtain ⟨hne, hfl, _, how⟩ := hwf
  simp only [successorAt?, successorAt, Configuration.getFree, Configuration.getOwned]
  cases hi : c.owned[i]? with
  | none => rfl
  | some o =>
    obtain ⟨ho1, ho2, _, _⟩ := how o (List.getElem?_mem hi)
    simp only
    by_cases hc : o.isComplete = true
    · simp [hc]
    · rw [if_neg hc, if_neg hc]
      simp only [Owner.getRequired, Resources.lt?_eq_some c.free o.required (by rw [hfl, ho2])]
      by_cases hlt : Resources.lt c.free o.required = true
      · simp [hlt]
      · simp only [Bool.not_eq_true] at hlt
        have hadd : Resources.add? c.free o.allocate.1 = some (Resources.add c.free o.allocate.1) :=
          Resources.add?_eq_some _ _ (by
            simp only [Owner.allocate, Resources.length_add]
            rw [hfl, ho2])
        have hnew := Configuration.new?_eq_some k (c.owned.set i o.allocate.2)
          (Resources.add c.free o.allocate.1)
          (by
            intro h0
            have := congrArg List.length h0
            simp only [List.length_set, List.length_nil] at this
            exact hne (List.length_eq_zero.1 this))
          (by
            intro o' ho'
            rcases List.mem_or_eq_of_mem_set ho' with h | h
            · exact (how o' h).2.1
            · subst h
              simp only [Owner.allocate, length_zero]
              exact ho2)
        simp [hlt, Owner.allocate?_eq_some o (by rw [ho1, ho2]), hadd, hnew]

theorem mapM_eq_some_map {α β : Type} (f : α → Option β) (g : α → β) (l : List α)
    (h : ∀ x ∈ l, f x = some (g x)) : l.mapM f = some (l.map g) := by
  induction l with
  | nil => rfl
  | cons x xs ih =>
    rw [List.mapM_cons, h x (List.mem_cons_self _ _),
      ih (fun y hy => h y (List.mem_cons_of_mem _ hy))]
    rfl

theorem successors?_eq_some (k : Nat) (c : Configuration)
    (hwf : Configuration.WellFormed k c) : successors? c = some (successors c) := by
  unfold successors? successors
  rw [mapM_eq_some_map _ (successorAt c.getFree c.getOwned) _
    (fun i _ => successorAt?_eq_some k c hwf i)]
  simp only [Option.map_some', Option.some.injEq, List.filterMap_map]
  rfl

theorem length_owned_of_step (c c' : Configuration) (h : Step c c') :
    c'.owned.length = c.owned.length := by
  obtain ⟨i, o, _, _, _, rfl⟩ := (step_iff c c').1 h
  simp only [Configuration.new]
  rw [(PrioritisedOwnership.ofRange_perm _).length_eq, List.length_set]

theorem length_owned_of_reachable (c c' : Configuration) (h : Reachable c c') :
    c'.owned.length = c.owned.length := by
  induction h with
  | refl => rfl
  | tail _ hstep ih => rw [length_owned_of_step _ _ hstep, ih]

theorem reachable_of_mem_enqueued (pq : PriorityQueue) (start : Configuration)
    (l : List Configuration) (h : enqueued pq start = some l) :
    ∀ s ∈ l, Reachable start s := by
  unfold enqueued at h
  cases ht : expanded pq start with
  | none => simp [ht] at h
  | some t =>
    rw [ht] at h
    simp only [Option.map_some', Option.some.injEq] at h
    subst h
    intro s hs
    simp only [List.mem_cons, List.mem_flatMap] at hs
    rcases hs with hs | ⟨c, hc, hsc⟩
    · subst hs
      exact Relation.ReflTransGen.refl
    · have hreach : Reachable start c :=
        expanded_invariant pq (Reachable start)
          (fun x y hx hxy => Relation.ReflTransGen.tail hx hxy) start
          Relation.ReflTransGen.refl t ht c hc
      exact Relation.ReflTransGen.tail hreach hsc

/-! ## Termination, successor shape and construction -/

theorem isValidLoop_fuel_succ (pq : PriorityQueue) (fuel : Nat) (q : pq.Q)
    (r : Bool × List Configuration) (h : isValidLoop pq fuel q = some r) :
    isValidLoop pq (fuel + 1) q = some r := by
  induction fuel generalizing q r with
  | zero => simp [isValidLoop] at h
  | succ n ih =>
    rw [isValidLoop_succ] at h ⊢
    cases hp : pq.pop? q with
    | none => rw [hp] at h; exact h
    | some p =>
      obtain ⟨c, rest⟩ := p
      rw [hp] at h
      simp only at h ⊢
      by_cases hc : c.isComplete = true
      · rw [if_pos hc] at h ⊢; exact h
      · rw [if_neg hc] at h ⊢
        by_cases he : (successors c).isEmpty = true
        · rw [if_pos he] at h ⊢; exact h
        · rw [if_neg he] at h ⊢
          cases hrec : isValidLoop pq n ((successors c).foldl pq.push rest) with
          | none => simp [hrec] at h
          | some r' =>
            rw [hrec] at h
            rw [ih _ r' hrec]
            exact h

theorem isValidLoop_fuel_le (pq : PriorityQueue) (fuel fuel' : Nat) (q : pq.Q)
    (r : Bool × List Configuration) (hle : fuel ≤ fuel')
    (h : isValidLoop pq fuel q = some r) : isValidLoop pq fuel' q = some r := by
  induction hle with
  | refl => exact h
  | step _ ih => exact isValidLoop_fuel_succ pq _ q r ih

theorem set_perm_cons_eraseIdx {α : Type} (l : List α) (i : Nat) (o o' : α)
    (h : l[i]? = some o) : (l.set i o').Perm (o' :: l.eraseIdx i) := by
  induction l generalizing i with
  | nil => simp at h
  | cons x xs ih =>
    cases i with
    | zero => simp
    | succ j =>
      simp only [List.getElem?_cons_succ] at h
      simp only [List.set_cons_succ, List.eraseIdx_cons_succ]
      exact (List.Perm.cons x (ih j h)).trans (List.Perm.swap _ _ _)

theorem countP_complete_of_step (c c' : Configuration) (h : Step c c') :
    c'.owned.countP (fun o => o.isComplete) = c.owned.countP (fun o => o.isComplete) + 1 := by
  have h1 := incomplete_of_step c c' h
  have h2 := length_owned_of_step c c' h
  have h3 := List.length_eq_countP_add_countP (fun o : Owner => o.isComplete) c.owned
  have h4 := List.length_eq_countP_add_countP (fun o : Owner => o.isComplete) c'.owned
  have e : ∀ l : List Owner, l.countP (fun o => ¬ (o.isComplete = true)) =
      l.countP (fun o => !o.isComplete) := by
    intro l
    congr 1
    funext o
    cases o.isComplete <;> simp
  rw [e] at h3 h4
  unfold incomplete at h1
  omega

theorem incomplete_le_length (c : Configuration) : incomplete c ≤ c.owned.length :=
  List.countP_le_length _

theorem mapM_eq_none_of_mem {α β : Type} (f : α → Option β) (l : List α)
    (h : ∃ x ∈ l, f x = none) : l.mapM f = none := by
  induction l with
  | nil =>
    obtain ⟨x, hx, _⟩ := h
    simp at hx
  | cons y ys ih =>
    rw [List.mapM_cons]
    cases hy : f y with
    | none => rfl
    | some b =>
      obtain ⟨x, hx, hfx⟩ := h
      rcases List.mem_cons.1 hx with hxy | hxs
      · subst hxy
        rw [hy] at hfx
        exact absurd hfx (by simp)
      · rw [ih ⟨x, hxs, hfx⟩]
        rfl

theorem construct_eq_none (owners : List (Resources × Resources)) (free : Resources)
    (h : owners = [] ∨ ∃ p ∈ owners, p.1.length ≠ p.2.length) :
    construct owners free = none := by
  rcases h with h | ⟨p, hp, hne⟩
  · subst h
    rfl
  · unfold construct
    rw [mapM_eq_none_of_mem _ owners ⟨p, hp, by simp [Owner.new?, hne]⟩]

theorem construct_eq_some (owners : List (Resources × Resources)) (free : Resources) (k : Nat)
    (hne : owners ≠ []) (h : ∀ p ∈ owners, p.1.length = k ∧ p.2.length = k) :
    construct owners free =
      some (Configuration.new (owners.map (fun p => Owner.new p.1 p.2)) free) := by
  unfold construct
  rw [mapM_eq_some_map _ (fun p => Owner.new p.1 p.2) owners (fun p hp => by
    have := h p hp
    simp [Owner.new?, this.1, this.2])]
  simp only
  apply Configuration.new?_eq_some k
  · simpa using hne
  · intro o ho
    obtain ⟨p, hp, rfl⟩ := List.mem_map.1 ho
    exact (h p hp).2

theorem getD_lt_of_forall_mem (v : Resources) (b : Nat) (h : ∀ x ∈ v, x < b) (n : Nat)
    (hn : n < v.length) : v.getD n 0 < b := by
  rw [List.getD_eq_getElem _ _ hn]
  exact h _ (List.getElem_mem hn)

/-! ## The claims -/

/-- C1, evaluated at the failing input `deadEnd` (owners with requests 1, 2
and 100 of one resource kind, free pool 2): with every priority queue
`isValid` returns true, although no configuration in which every owner is
complete is reachable by successor steps. -/
theorem isValid_true_without_complete_reachable (pq : PriorityQueue) :
    Configuration.WellFormed 1 deadEnd ∧ isValid pq deadEnd = some true ∧
      ¬ ∃ c', Reachable deadEnd c' ∧ c'.isComplete = true := by
  refine ⟨by decide, ?_, ?_⟩
  · exact isValid_of_run
      (isValidRun_true_of_two_successors pq deadEnd (by decide) (by decide))
  · rintro ⟨c', hreach, hcompl⟩
    have hmem := mem_reachableIn_of_reachable 3 deadEnd c' (by decide) hreach
    have hall : ∀ x ∈ reachableIn 3 deadEnd, x.isComplete = false := by decide
    rw [hall c' hmem] at hcompl
    exact Bool.false_ne_true hcompl

/-- C2: completeness of the verdict.  For every well-formed start
configuration and every priority queue, if a configuration in which every
owner is complete is reachable by successor steps of the search, then
`isValid` returns true. -/
theorem isValid_true_of_complete_reachable (pq : PriorityQueue) (k : Nat) (c : Configuration)
    (_hwf : Configuration.WellFormed k c)
    (hr : ∃ c', Reachable c c' ∧ c'.isComplete = true) :
    isValid pq c = some true :=
  isValid_of_run (isValidRun_true_of_reachable pq c hr)

theorem isValid_true_of_complete_reachable_witness :
    Configuration.WellFormed 3 scenarioA ∧
      (∃ c', Reachable scenarioA c' ∧ c'.isComplete = true) ∧
      isValid sortedQueue scenarioA = some true :=
  have hr : ∃ c', Reachable scenarioA c' ∧ c'.isComplete = true := by
    have h : ∃ x ∈ reachableIn 2 scenarioA, x.isComplete = true := by decide
    obtain ⟨x, hx, hc⟩ := h
    exact ⟨x, reachable_of_mem_reachableIn 2 scenarioA x hx, hc⟩
  ⟨by decide, hr,
    isValid_true_of_complete_reachable sortedQueue 3 scenarioA (by decide) hr⟩

/-- C3, refuted as stated: `isValid` expands Scenario A's start configuration
and pushes the successor for the incomplete owner at index 0 (owner `B`,
required `[1, 3, 4]`), although the free pool `[5, 2, 3]` is smaller than the
requirement in the second and third coordinate. -/
theorem successor_pushed_without_dominance :
    scenarioA ∈ (expanded sortedQueue scenarioA).getD [] ∧
      scenarioA.getFree = [5, 2, 3] ∧
      scenarioA.getOwned[0]? = some ownerB ∧ ownerB.isComplete = false ∧
      ownerB.getRequired = [1, 3, 4] ∧
      (successorAt scenarioA.getFree scenarioA.getOwned 0).isSome = true ∧
      ¬ Dominates scenarioA.getFree ownerB.getRequired := by
  decide

/-- C3, amended: feasibility is decided by the first coordinate where the
vectors differ, not by every coordinate.  When `isValid`, started on a
well-formed configuration, expands a configuration `c` whose free pool and an
incomplete owner's `required` vector have all counts below `2 ^ 31`, the
successor for that owner is pushed if and only if `c.free` is at least
`required` at every coordinate that is preceded only by coordinates where the
two agree (so at the first coordinate where they differ, if any, `free` is
the greater; later coordinates are not examined). -/
theorem successor_pushed_iff_first_difference (pq : PriorityQueue) (k : Nat)
    (start : Configuration) (hwf : Configuration.WellFormed k start)
    (t : List Configuration) (hrun : expanded pq start = some t)
    (c : Configuration) (hc : c ∈ t) (i : Nat) (o : Owner)
    (ho : c.getOwned[i]? = some o) (hinc : o.isComplete = false)
    (hfree : ∀ x ∈ c.getFree, x < 2147483648)
    (hreq : ∀ x ∈ o.getRequired, x < 2147483648) :
    (successorAt c.getFree c.getOwned i).isSome = true ↔
      ∀ n, n < k → (∀ j, j < n → c.getFree.getD j 0 = o.getRequired.getD j 0) →
        o.getRequired.getD n 0 ≤ c.getFree.getD n 0 := by
  have hwfc : Configuration.WellFormed k c :=
    expanded_invariant pq (Configuration.WellFormed k)
      (fun c c' h hs => wellFormed_of_step k c c' h hs) start hwf t hrun c hc
  obtain ⟨_, hfl, hfr, how⟩ := hwfc
  simp only [Configuration.getOwned, Configuration.getFree, Owner.getRequired] at ho hfree hreq ⊢
  obtain ⟨_, ho2, _, ho4⟩ := how o (List.getElem?_mem ho)
  have hchar := Resources.lt_eq_false_iff c.free o.required (by rw [hfl, ho2]) hfr ho4
  rw [hfl] at hchar
  have hsigned : ∀ n, n < k →
      (0 ≤ toSigned ((c.free.getD n 0 + 4294967296 - o.required.getD n 0) % 4294967296) ↔
        o.required.getD n 0 ≤ c.free.getD n 0) := by
    intro n hn
    have h1 := getD_lt_of_forall_mem c.free 2147483648 hfree n (by rw [hfl]; exact hn)
    have h2 := getD_lt_of_forall_mem o.required 2147483648 hreq n (by rw [ho2]; exact hn)
    rw [toSigned_wrapped_difference _ _ h1 h2]
    omega
  have hlt : Resources.lt c.free o.required = false ↔
      ∀ n, n < k → (∀ j, j < n → c.free.getD j 0 = o.required.getD j 0) →
        o.required.getD n 0 ≤ c.free.getD n 0 := by
    rw [hchar]
    constructor
    · intro h n hn hpre
      exact (hsigned n hn).1 (h n hn hpre)
    · intro h n hn hpre
      exact (hsigned n hn).2 (h n hn hpre)
  rw [← hlt]
  constructor
  · intro h
    obtain ⟨s, hs⟩ := Option.isSome_iff_exists.1 h
    obtain ⟨o', ho', _, hlt', _⟩ := (successorAt_eq_some _ _ _ _).1 hs
    rw [ho] at ho'
    simp only [Option.some.injEq] at ho'
    subst ho'
    exact hlt'
  · intro hlt'
    exact Option.isSome_iff_exists.2
      ⟨_, (successorAt_eq_some _ _ _ _).2 ⟨o, ho, hinc, hlt', rfl⟩⟩

theorem successor_pushed_iff_first_difference_witness :
    Configuration.WellFormed 3 scenarioA ∧
      scenarioA ∈ (expanded sortedQueue scenarioA).getD [] ∧
      scenarioA.getOwned[0]? = some ownerB ∧ ownerB.isComplete = false ∧
      (∀ x ∈ scenarioA.getFree, x < 2147483648) ∧
      (∀ x ∈ ownerB.getRequired, x < 2147483648) ∧
      (successorAt scenarioA.getFree scenarioA.getOwned 0).isSome = true ∧
      ((successorAt scenarioA.getFree scenarioA.getOwned 0).isSome = true ↔
        ∀ n, n < 3 →
          (∀ j, j < n → scenarioA.getFree.getD j 0 = ownerB.getRequired.getD j 0) →
          ownerB.getRequired.getD n 0 ≤ scenarioA.getFree.getD n 0) :=
  ⟨by decide, by decide, by decide, by decide, by decide, by decide, by decide,
    successor_pushed_iff_first_difference sortedQueue 3 scenarioA (by decide)
      ((expanded sortedQueue scenarioA).getD []) (by decide) scenarioA (by decide) 0 ownerB
      (by decide) (by decide) (by decide) (by decide)⟩

/-- C4: Scenario A, the configuration built in `main` (owners
`A{owned [0,0,0], required [5,7,9]}` and `B{owned [0,2,0], required [1,3,4]}`,
free pool `[5,2,3]`): `isValid` returns true, with every priority queue. -/
theorem isValid_scenarioA (pq : PriorityQueue) :
    scenarioA = Configuration.new
      [Owner.new [0, 0, 0] [5, 7, 9], Owner.new [0, 2, 0] [1, 3, 4]] [5, 2, 3] ∧
    isValid pq scenarioA = some true := by
  refine ⟨rfl, isValid_of_run (isValidRun_true_of_reachable pq scenarioA ?_)⟩
  have h : ∃ x ∈ reachableIn 2 scenarioA, x.isComplete = true := by decide
  obtain ⟨x, hx, hc⟩ := h
  exact ⟨x, reachable_of_mem_reachableIn 2 scenarioA x hx, hc⟩

/-- C5, evaluated at the failing input `impossibleDemand` (one owner, owned
`[0]`, required `[2147483649]`, free pool `[0]`): the requirement exceeds the
free pool in every coordinate, and `isValid` returns true with every priority
queue. -/
theorem isValid_true_on_impossibleDemand (pq : PriorityQueue) :
    impossibleDemand = Configuration.new [Owner.new [0] [2147483649]] [0] ∧
    (∀ i, i < 1 → ([0] : Resources).getD i 0 < ([2147483649] : Resources).getD i 0) ∧
    isValid pq impossibleDemand = some true := by
  refine ⟨rfl, by decide, isValid_of_run (isValidRun_true_of_reachable pq impossibleDemand ?_)⟩
  have h : ∃ x ∈ reachableIn 1 impossibleDemand, x.isComplete = true := by decide
  obtain ⟨x, hx, hc⟩ := h
  exact ⟨x, reachable_of_mem_reachableIn 1 impossibleDemand x hx, hc⟩

/-- C6: safe states are reported safe.  For every well-formed configuration
in which, in each coordinate, the free pool plus the `owned` and `required`
counts of all owners stays below `2 ^ 31`, if the incomplete owners can be put
in an order in which each one's `required` vector is dominated coordinate-wise
by the pool at its turn (the pool starts at `free` and grows by
`owned + required` of each owner completed before), then `isValid` returns
true, with every priority queue. -/
theorem isValid_true_of_safeOrder (pq : PriorityQueue) (k : Nat) (c : Configuration)
    (order : List Owner) (hwf : Configuration.WellFormed k c)
    (hbound : ∀ j, j < k → c.free.getD j 0 +
      (c.owned.map (fun o => o.owned.getD j 0 + o.required.getD j 0)).sum < 2147483648)
    (hperm : order.Perm (c.owned.filter (fun o => !o.isComplete)))
    (hsafe : SafeOrder k (fun j => c.free.getD j 0) order) :
    isValid pq c = some true :=
  isValid_of_run (isValidRun_true_of_reachable pq c
    (exists_complete_of_safeOrder k order c hwf hbound hperm hsafe))

theorem isValid_true_of_safeOrder_witness :
    Configuration.WellFormed 2 scenarioD ∧
      (∀ j, j < 2 → scenarioD.free.getD j 0 +
        (scenarioD.owned.map (fun o => o.owned.getD j 0 + o.required.getD j 0)).sum
          < 2147483648) ∧
      [ownerY, ownerX].Perm (scenarioD.owned.filter (fun o => !o.isComplete)) ∧
      SafeOrder 2 (fun j => scenarioD.free.getD j 0) [ownerY, ownerX] ∧
      ¬ Dominates scenarioD.free ownerX.required ∧
      isValid sortedQueue scenarioD = some true :=
  have hperm : [ownerY, ownerX].Perm (scenarioD.owned.filter (fun o => !o.isComplete)) :=
    List.Perm.of_eq (by decide)
  have hsafe : SafeOrder 2 (fun j => scenarioD.free.getD j 0) [ownerY, ownerX] :=
    ⟨by decide, by decide, trivial⟩
  ⟨by decide, by decide, hperm, hsafe, by decide,
    isValid_true_of_safeOrder sortedQueue 2 scenarioD [ownerY, ownerX] (by decide) (by decide)
      hperm hsafe⟩

/-- C7: Scenario B.  For every non-empty list of owners whose `required`
vectors are all zeros and every free pool, `isValid` returns true and the list
of expanded configurations is empty, with every priority queue. -/
theorem isValid_all_zero_required (pq : PriorityQueue) (owners : List (Resources × Resources))
    (free : Resources) (_hne : owners ≠ [])
    (hzero : ∀ p ∈ owners, ∀ elem ∈ p.2, elem = 0) :
    isValidRun pq (Configuration.new (owners.map (fun p => Owner.new p.1 p.2)) free)
        = some (true, []) ∧
      isValid pq (Configuration.new (owners.map (fun p => Owner.new p.1 p.2)) free)
        = some true := by
  have hc : (Configuration.new (owners.map (fun p => Owner.new p.1 p.2)) free).isComplete
      = true := by
    rw [Configuration.isComplete_new, List.all_eq_true]
    intro o ho
    obtain ⟨p, hp, rfl⟩ := List.mem_map.1 ho
    simp only [Owner.isComplete, Owner.new_completed, List.all_eq_true, beq_iff_eq]
    exact hzero p hp
  have hrun := isValidRun_of_complete pq _ hc
  exact ⟨hrun, isValid_of_run ⟨[], hrun⟩⟩

theorem isValid_all_zero_required_witness :
    ([([3, 1, 4], [0, 0, 0])] : List (Resources × Resources)) ≠ [] ∧
    isValidRun sortedQueue
        (Configuration.new ([([3, 1, 4], [0, 0, 0])].map (fun p => Owner.new p.1 p.2)) [7, 0, 2])
        = some (true, []) ∧
      isValid sortedQueue
        (Configuration.new ([([3, 1, 4], [0, 0, 0])].map (fun p => Owner.new p.1 p.2)) [7, 0, 2])
        = some true :=
  ⟨by decide,
    isValid_all_zero_required sortedQueue [([3, 1, 4], [0, 0, 0])] [7, 0, 2] (by decide)
      (by decide)⟩

/-- C8, evaluated at the failing input `a = [0]`, `b = [2147483649]`: `a` is
lexicographically (numerically) smaller than `b`, but `operator<` gives
`a < b` false, and `b < a` true. -/
theorem Resources.lt_not_lexicographic :
    LexLess [0] [2147483649] ∧ Resources.lt [0] [2147483649] = false ∧
      Resources.lt [2147483649] [0] = true ∧ ¬ LexLess [2147483649] [0] := by
  decide

/-- C9, evaluated at the failing input `a = [0]`, `b = [2147483648]`,
`c = [4294967295]`: `a < b` and `b < c` hold under `operator<` but `a < c`
does not, so the relation is not transitive; moreover `b < a` holds as well. -/
theorem Resources.lt_not_transitive :
    Resources.lt [0] [2147483648] = true ∧ Resources.lt [2147483648] [4294967295] = true ∧
      Resources.lt [0] [4294967295] = false ∧ Resources.lt [2147483648] [0] = true := by
  decide

/-- C10: inverse law.  For equal-length vectors `a`, `b` of 32-bit unsigned
counts, `(a - b) + b` is `a` (the same length and the same value in every
coordinate), with the wrap-around of a coordinate where `b[i]` exceeds `a[i]`
undone by the addition. -/
theorem Resources.sub_add_inverse (a b : Resources) (hlen : a.length = b.length)
    (ha : Resources.inRange a) (hb : Resources.inRange b) :
    Resources.add (Resources.sub a b) b = a :=
  Resources.add_sub_same a b hlen ha hb

theorem Resources.sub_add_inverse_witness :
    ([1, 0, 7] : Resources).length = ([2, 4294967295, 7] : Resources).length ∧
      Resources.sub [1, 0, 7] [2, 4294967295, 7] = [4294967295, 1, 0] ∧
      Resources.add (Resources.sub [1, 0, 7] [2, 4294967295, 7]) [2, 4294967295, 7]
        = [1, 0, 7] :=
  ⟨by decide, by decide,
    Resources.sub_add_inverse [1, 0, 7] [2, 4294967295, 7] (by decide) (by decide) (by decide)⟩

/-- C11: `Owner::allocate` on an owner whose `owned` and `required` have equal
length returns the vector of that length whose `i`-th coordinate is the
`uint32_t` sum `owned[i] + required[i]` (the plain sum whenever it fits 32
bits), and leaves the owner complete with `owned` and `required` all zeros,
both of the original length. -/
theorem Owner.allocate_returns_sum_and_zeroes (o : Owner)
    (hlen : o.owned.length = o.required.length) :
    o.allocate.1.length = o.owned.length ∧
      (∀ i, o.allocate.1.getD i 0 = (o.owned.getD i 0 + o.required.getD i 0) % 4294967296) ∧
      (∀ i, o.owned.getD i 0 + o.required.getD i 0 < 4294967296 →
        o.allocate.1.getD i 0 = o.owned.getD i 0 + o.required.getD i 0) ∧
      o.allocate.2.isComplete = true ∧
      o.allocate.2.owned = List.replicate o.owned.length 0 ∧
      o.allocate.2.required = List.replicate o.required.length 0 := by
  have hsum : ∀ i, o.allocate.1.getD i 0 =
      (o.owned.getD i 0 + o.required.getD i 0) % 4294967296 := by
    intro i
    simp only [Owner.allocate]
    rw [Resources.getD_add _ _ hlen.symm, Nat.add_comm]
  refine ⟨?_, hsum, ?_, rfl, zero_eq_replicate _, zero_eq_replicate _⟩
  · simp only [Owner.allocate, Resources.length_add]
    exact hlen.symm
  · intro i hi
    rw [hsum i, Nat.mod_eq_of_lt hi]

theorem Owner.allocate_returns_sum_and_zeroes_witness :
    ownerB.owned.length = ownerB.required.length ∧
      ownerB.allocate.1 = [1, 5, 4] ∧
      ownerB.allocate.1.length = ownerB.owned.length ∧
      (∀ i, ownerB.allocate.1.getD i 0 =
        (ownerB.owned.getD i 0 + ownerB.required.getD i 0) % 4294967296) ∧
      (∀ i, ownerB.owned.getD i 0 + ownerB.required.getD i 0 < 4294967296 →
        ownerB.allocate.1.getD i 0 = ownerB.owned.getD i 0 + ownerB.required.getD i 0) ∧
      ownerB.allocate.2.isComplete = true ∧
      ownerB.allocate.2.owned = List.replicate ownerB.owned.length 0 ∧
      ownerB.allocate.2.required = List.replicate ownerB.required.length 0 :=
  ⟨by decide, by decide, Owner.allocate_returns_sum_and_zeroes ownerB (by decide)⟩

/-- C12: the owner constructed from equal-length vectors `owned` and
`required` is complete if and only if every coordinate of `required` is 0;
the vector `owned` has no influence. -/
theorem Owner.new_isComplete_iff (owned required : Resources)
    (_hlen : owned.length = required.length) :
    ((Owner.new owned required).isComplete = true ↔ ∀ elem ∈ required, elem = 0) ∧
      ∀ owned' : Resources,
        (Owner.new owned' required).isComplete = (Owner.new owned required).isComplete := by
  constructor
  · simp only [Owner.isComplete, Owner.new_completed, List.all_eq_true, beq_iff_eq]
  · intro owned'
    simp only [Owner.isComplete, Owner.new_completed]

theorem Owner.new_isComplete_iff_witness :
    ([] : Resources).length = ([] : Resources).length ∧
      (Owner.new [] []).isComplete = true ∧
      (Owner.new [4, 4] [0, 0]).isComplete = true ∧
      (Owner.new [0, 0] [0, 3]).isComplete = false ∧
      (((Owner.new [] []).isComplete = true ↔ ∀ elem ∈ ([] : Resources), elem = 0) ∧
        ∀ owned' : Resources,
          (Owner.new owned' []).isComplete = (Owner.new [] []).isComplete) :=
  ⟨rfl, by decide, by decide, by decide, Owner.new_isComplete_iff [] [] rfl⟩

/-- C13, refuted as stated: for the incomplete owner `x` (required `[1]`) and
the complete owner `y` (required `[0]`), `x < y` is false and `y < x` is
true. -/
theorem Owner.lt_incomplete_not_before_complete :
    (Owner.new [0] [1]).isComplete = false ∧ (Owner.new [0] [0]).isComplete = true ∧
      Owner.lt (Owner.new [0] [1]) (Owner.new [0] [0]) = false ∧
      Owner.lt (Owner.new [0] [0]) (Owner.new [0] [1]) = true := by
  decide

/-- C13, amended: complete sorts before incomplete.  For owners `x`, `y` of
equal vector length, if `x` is complete and `y` is incomplete then `x < y`
holds and `y < x` does not; if `x` and `y` have the same completion state then
`x < y` is `x.required < y.required` under `operator<` of the vectors. -/
theorem Owner.lt_complete_before_incomplete (x y : Owner)
    (_hlen : x.required.length = y.required.length) :
    (x.isComplete = true → y.isComplete = false →
        Owner.lt x y = true ∧ Owner.lt y x = false) ∧
      (x.isComplete = y.isComplete →
        Owner.lt x y = Resources.lt x.required y.required) := by
  constructor
  · intro hx hy
    simp only [Owner.isComplete] at hx hy
    simp [Owner.lt, hx, hy]
  · intro h
    simp only [Owner.isComplete] at h
    simp [Owner.lt, h]

theorem Owner.lt_complete_before_incomplete_witness :
    (Owner.new [0] [0]).required.length = (Owner.new [0] [1]).required.length ∧
      ((Owner.new [0] [0]).isComplete = true → (Owner.new [0] [1]).isComplete = false →
        Owner.lt (Owner.new [0] [0]) (Owner.new [0] [1]) = true ∧
          Owner.lt (Owner.new [0] [1]) (Owner.new [0] [0]) = false) ∧
      ((Owner.new [0] [0]).isComplete = (Owner.new [0] [1]).isComplete →
        Owner.lt (Owner.new [0] [0]) (Owner.new [0] [1]) =
          Resources.lt (Owner.new [0] [0]).required (Owner.new [0] [1]).required) :=
  ⟨by decide, Owner.lt_complete_before_incomplete (Owner.new [0] [0]) (Owner.new [0] [1])
    (by decide)⟩

/-- C14: for configurations `c1`, `c2` with the same number of owners and the
same vector width, `c1 < c2` holds if and only if `c1.free < c2.free`, or
neither free pool is less than the other and the owner sequence of `c1`
precedes that of `c2` position-wise (the first position where one owner is
less than the other has the owner of `c1` less).  Replacing the `owned`
vectors of the owners by any others leaves the result unchanged. -/
theorem Configuration.lt_iff (c1 c2 : Configuration)
    (_hn : c1.owned.length = c2.owned.length) (_hk : c1.free.length = c2.free.length)
    (f g : Owner → Resources) :
    (Configuration.lt c1 c2 = true ↔
        Resources.lt c1.free c2.free = true ∨
          (Resources.lt c1.free c2.free = false ∧ Resources.lt c2.free c1.free = false ∧
            OwnersPrecede c1.owned c2.owned)) ∧
      Configuration.lt
          { owned := c1.owned.map (fun o => { o with owned := f o }), free := c1.free }
          { owned := c2.owned.map (fun o => { o with owned := g o }), free := c2.free }
        = Configuration.lt c1 c2 := by
  constructor
  · simp only [Configuration.lt]
    by_cases h1 : Resources.lt c1.free c2.free = true
    · simp [h1]
    · by_cases h2 : Resources.lt c2.free c1.free = true
      · simp [h1, h2]
      · simp only [Bool.not_eq_true] at h1 h2
        simp [h1, h2, PrioritisedOwnership.lt_iff_ownersPrecede]
  · simp only [Configuration.lt, PrioritisedOwnership.lt_map_owned]

theorem Configuration.lt_iff_witness :
    scenarioA.owned.length = ownersRaised.owned.length ∧
      scenarioA.free.length = ownersRaised.free.length ∧
      Configuration.lt scenarioA ownersRaised = true ∧
      ((Configuration.lt scenarioA ownersRaised = true ↔
          Resources.lt scenarioA.free ownersRaised.free = true ∨
            (Resources.lt scenarioA.free ownersRaised.free = false ∧
              Resources.lt ownersRaised.free scenarioA.free = false ∧
              OwnersPrecede scenarioA.owned ownersRaised.owned)) ∧
        Configuration.lt
            { owned := scenarioA.owned.map (fun o => { o with owned := zero o.owned }),
              free := scenarioA.free }
            { owned := ownersRaised.owned.map (fun o => { o with owned := o.required }),
              free := ownersRaised.free }
          = Configuration.lt scenarioA ownersRaised) :=
  ⟨by decide, by decide, by decide,
    Configuration.lt_iff scenarioA ownersRaised (by decide) (by decide)
      (fun o => zero o.owned) (fun o => o.required)⟩

/-- C15, refuted as stated: the input with the single owner
`{owned [0], required [1]}` and the free pool `[1, 2]`, whose length differs
from the owner's vector length, passes both constructors; the mismatch is met
only inside `isValid`, by the assertion of `free < required`. -/
theorem construct_accepts_mismatched_free :
    ([1, 2] : Resources).length ≠ ([1] : Resources).length ∧
      construct [([0], [1])] [1, 2] = some (Configuration.new [Owner.new [0] [1]] [1, 2]) ∧
      successors? (Configuration.new [Owner.new [0] [1]] [1, 2]) = none := by
  decide

/-- C15, amended: the constructors check the owners only.  An input with an
empty owner list, or with an owner whose `owned` and `required` lengths
differ, makes a constructor's assertion fail, whatever the free pool is, so no
configuration is built from it; an input with at least one owner in which all
`owned` and `required` vectors have one common length is accepted by both
constructors, whatever the length of the free pool is. -/
theorem construct_checks_owners_only (owners : List (Resources × Resources))
    (free : Resources) :
    ((owners = [] ∨ ∃ p ∈ owners, p.1.length ≠ p.2.length) →
        construct owners free = none) ∧
      (∀ k, owners ≠ [] → (∀ p ∈ owners, p.1.length = k ∧ p.2.length = k) →
        construct owners free =
          some (Configuration.new (owners.map (fun p => Owner.new p.1 p.2)) free)) :=
  ⟨construct_eq_none owners free, fun k hne h => construct_eq_some owners free k hne h⟩

theorem construct_checks_owners_only_witness :
    construct [([0, 0], [1, 2]), ([0], [1, 2])] [3, 3] = none ∧
      construct [] [3, 3] = none ∧
      construct [([0, 0], [1, 2]), ([4, 0], [0, 2])] [3, 3, 3] =
        some (Configuration.new
          ([([0, 0], [1, 2]), ([4, 0], [0, 2])].map (fun p => Owner.new p.1 p.2)) [3, 3, 3]) :=
  ⟨(construct_checks_owners_only [([0, 0], [1, 2]), ([0], [1, 2])] [3, 3]).1
      (Or.inr ⟨([0], [1, 2]), by decide, by decide⟩),
    (construct_checks_owners_only [] [3, 3]).1 (Or.inl rfl),
    (construct_checks_owners_only [([0, 0], [1, 2]), ([4, 0], [0, 2])] [3, 3, 3]).2 2
      (by decide) (by decide)⟩

/-- C16: the successor step.  When `isValid`, started on a well-formed
configuration of width `k`, expands `c` and pushes the successor `s` for the
owner `o` at index `i`, then the free pool of `s` is
`c.free + o.owned + o.required` in every coordinate modulo `2 ^ 32`, and the
owners of `s` are, up to their order, the owners of `c` with the one at index
`i` replaced by a complete owner whose `owned` and `required` are all zeros;
every successor of `c` is computed from `c.free` itself. -/
theorem successor_free_and_owners (pq : PriorityQueue) (k : Nat) (start : Configuration)
    (hwf : Configuration.WellFormed k start) (t : List Configuration)
    (hrun : expanded pq start = some t) (c : Configuration) (hc : c ∈ t) (i : Nat)
    (o : Owner) (s : Configuration) (ho : c.getOwned[i]? = some o)
    (hs : successorAt c.getFree c.getOwned i = some s) :
    o.isComplete = false ∧ s.free.length = k ∧
      (∀ j, s.free.getD j 0 =
        (c.free.getD j 0 + o.owned.getD j 0 + o.required.getD j 0) % 4294967296) ∧
      s.owned.Perm
        ({ completed := true, owned := List.replicate k 0, required := List.replicate k 0 }
          :: c.owned.eraseIdx i) := by
  have hwfc : Configuration.WellFormed k c :=
    expanded_invariant pq (Configuration.WellFormed k)
      (fun c c' h hs => wellFormed_of_step k c c' h hs) start hwf t hrun c hc
  obtain ⟨_, hfl, _, how⟩ := hwfc
  simp only [Configuration.getOwned, Configuration.getFree] at ho hs
  obtain ⟨ho1, ho2, _, _⟩ := how o (List.getElem?_mem ho)
  obtain ⟨o', ho', hinc, _, rfl⟩ := (successorAt_eq_some _ _ _ _).1 hs
  rw [ho] at ho'
  simp only [Option.some.injEq] at ho'
  subst ho'
  refine ⟨hinc, ?_, ?_, ?_⟩
  · simp only [Configuration.new, Resources.length_add]
    exact hfl
  · intro j
    simp only [Configuration.new, Owner.allocate]
    rw [Resources.getD_add _ _ (by rw [hfl, Resources.length_add, ho2]),
      Resources.getD_add _ _ (by rw [ho1, ho2])]
    omega
  · have hperm := PrioritisedOwnership.ofRange_perm (c.owned.set i o.allocate.2)
    have hset := set_perm_cons_eraseIdx c.owned i o o.allocate.2 ho
    have hz : o.allocate.2 =
        { completed := true, owned := List.replicate k 0, required := List.replicate k 0 } := by
      simp only [Owner.allocate, zero_eq_replicate, ho1, ho2]
    show (PrioritisedOwnership.ofRange (c.owned.set i o.allocate.2)).Perm _
    rw [hz] at hperm hset ⊢
    exact hperm.trans hset

theorem successor_free_and_owners_witness :
    Configuration.WellFormed 3 scenarioA ∧
      scenarioA ∈ (expanded sortedQueue scenarioA).getD [] ∧
      scenarioA.getOwned[0]? = some ownerB ∧
      successorAt scenarioA.getFree scenarioA.getOwned 0 =
        some (Configuration.new [Owner.new [0, 0, 0] [0, 0, 0], ownerA] [6, 7, 7]) ∧
      (ownerB.isComplete = false ∧
        (Configuration.new [Owner.new [0, 0, 0] [0, 0, 0], ownerA] [6, 7, 7]).free.length = 3 ∧
        (∀ j, (Configuration.new [Owner.new [0, 0, 0] [0, 0, 0], ownerA] [6, 7, 7]).free.getD j 0 =
          (scenarioA.free.getD j 0 + ownerB.owned.getD j 0 + ownerB.required.getD j 0)
            % 4294967296) ∧
        (Configuration.new [Owner.new [0, 0, 0] [0, 0, 0], ownerA] [6, 7, 7]).owned.Perm
          ({ completed := true, owned := List.replicate 3 0, required := List.replicate 3 0 }
            :: scenarioA.owned.eraseIdx 0)) :=
  ⟨by decide, by decide, by decide, by decide,
    successor_free_and_owners sortedQueue 3 scenarioA (by decide)
      ((expanded sortedQueue scenarioA).getD []) (by decide) scenarioA (by decide) 0 ownerB
      (Configuration.new [Owner.new [0, 0, 0] [0, 0, 0], ownerA] [6, 7, 7])
      (by decide) (by decide)⟩

/-- C17: termination.  For every well-formed start configuration and every
priority queue the loop of `isValid` ends with a result, the same for every
amount of fuel above the bound, so `isValid` is a total function; every
configuration pushed has one more complete owner than the configuration it
was produced from; and every configuration reachable from the start is within
`n` successor steps of it, `n` being the number of owners. -/
theorem isValid_terminates (pq : PriorityQueue) (k : Nat) (start : Configuration)
    (_hwf : Configuration.WellFormed k start) :
    (∃ r, ∀ fuel, searchWeight (incomplete start) < fuel →
        isValidLoop pq fuel (pq.push pq.empty start) = some r) ∧
      (∃ verdict, isValid pq start = some verdict) ∧
      (∀ c s, Step c s →
        s.owned.countP (fun o => o.isComplete) = c.owned.countP (fun o => o.isComplete) + 1) ∧
      (∀ c', Reachable start c' → c' ∈ reachableIn start.owned.length start) := by
  obtain ⟨r, hr⟩ := isValidRun_terminates pq start
  refine ⟨⟨r, fun fuel hfuel => ?_⟩, ⟨r.1, ?_⟩, countP_complete_of_step, ?_⟩
  · exact isValidLoop_fuel_le pq _ fuel _ r (by omega) hr
  · simp [isValid, hr]
  · intro c' hreach
    exact mem_reachableIn_of_reachable _ start c' (incomplete_le_length start) hreach

theorem isValid_terminates_witness :
    Configuration.WellFormed 1 deadEnd ∧
      ((∃ r, ∀ fuel, searchWeight (incomplete deadEnd) < fuel →
          isValidLoop sortedQueue fuel (sortedQueue.push sortedQueue.empty deadEnd) = some r) ∧
        (∃ verdict, isValid sortedQueue deadEnd = some verdict) ∧
        (∀ c s, Step c s →
          s.owned.countP (fun o => o.isComplete) =
            c.owned.countP (fun o => o.isComplete) + 1) ∧
        (∀ c', Reachable deadEnd c' → c' ∈ reachableIn deadEnd.owned.length deadEnd)) :=
  ⟨by decide, isValid_terminates sortedQueue 1 deadEnd (by decide)⟩

/-- C18: no contract violation during the search.  For every well-formed start
configuration the run of `isValid` exists, every pass of the `for` loop over an
expanded configuration goes through with all assertions true (those of
vector `<`, vector `+` and the `Configuration` constructor with the owner
comparisons of its multiset), and `Configuration::operator>` can be applied
to any two configurations placed on the frontier with all assertions true
(its own and those of vector `<`, `Owner <` and owner-multiset `<`). -/
theorem isValid_no_assertion_fails (pq : PriorityQueue) (k : Nat) (start : Configuration)
    (hwf : Configuration.WellFormed k start) :
    ∃ t l, expanded pq start = some t ∧ enqueued pq start = some l ∧
      (∀ c ∈ t, successors? c = some (successors c)) ∧
      (∀ c1 ∈ l, ∀ c2 ∈ l, Configuration.gt? c1 c2 = some (Configuration.gt c1 c2)) := by
  obtain ⟨r, hr⟩ := isValidRun_terminates pq start
  have ht : expanded pq start = some r.2 := by simp [expanded, hr]
  have hl : enqueued pq start = some (start :: r.2.flatMap successors) := by
    simp [enqueued, ht]
  refine ⟨r.2, _, ht, hl, ?_, ?_⟩
  · intro c hc
    exact successors?_eq_some k c
      (expanded_invariant pq (Configuration.WellFormed k)
        (fun c c' h hs => wellFormed_of_step k c c' h hs) start hwf r.2 ht c hc)
  · intro c1 h1 c2 h2
    have hr1 := reachable_of_mem_enqueued pq start _ hl c1 h1
    have hr2 := reachable_of_mem_enqueued pq start _ hl c2 h2
    exact Configuration.gt?_eq_some k c1 c2 (wellFormed_of_reachable k start c1 hwf hr1)
      (wellFormed_of_reachable k start c2 hwf hr2)
      (by rw [length_owned_of_reachable start c1 hr1, length_owned_of_reachable start c2 hr2])

theorem isValid_no_assertion_fails_witness :
    Configuration.WellFormed 1 deadEnd ∧
      ∃ t l, expanded sortedQueue deadEnd = some t ∧ enqueued sortedQueue deadEnd = some l ∧
        (∀ c ∈ t, successors? c = some (successors c)) ∧
        (∀ c1 ∈ l, ∀ c2 ∈ l, Configuration.gt? c1 c2 = some (Configuration.gt c1 c2)) :=
  ⟨by decide, isValid_no_assertion_fails sortedQueue 1 deadEnd (by decide)⟩

/-- C19: shape invariant.  For every well-formed start configuration of width
`k`, every configuration that `isValid` places on the frontier has as many
owners as the start configuration, a free pool of the length of the start's
free pool, and `owned` and `required` vectors of length `k` for every owner. -/
theorem enqueued_shape (pq : PriorityQueue) (k : Nat) (start : Configuration)
    (hwf : Configuration.WellFormed k start) :
    ∃ l, enqueued pq start = some l ∧ ∀ s ∈ l,
      s.owned.length = start.owned.length ∧ s.free.length = start.free.length ∧
        ∀ o ∈ s.owned, o.owned.length = k ∧ o.required.length = k := by
  obtain ⟨r, hr⟩ := isValidRun_terminates pq start
  have hl : enqueued pq start = some (start :: r.2.flatMap successors) := by
    simp [enqueued, expanded, hr]
  refine ⟨_, hl, ?_⟩
  intro s hs
  have hreach := reachable_of_mem_enqueued pq start _ hl s hs
  obtain ⟨_, hfl, _, how⟩ := wellFormed_of_reachable k start s hwf hreach
  refine ⟨length_owned_of_reachable start s hreach, ?_, fun o ho => ?_⟩
  · rw [hfl, hwf.2.1]
  · exact ⟨(how o ho).1, (how o ho).2.1⟩

theorem enqueued_shape_witness :
    Configuration.WellFormed 1 deadEnd ∧
      (enqueued sortedQueue deadEnd).map List.length = some 5 ∧
      ∃ l, enqueued sortedQueue deadEnd = some l ∧ ∀ s ∈ l,
        s.owned.length = deadEnd.owned.length ∧ s.free.length = deadEnd.free.length ∧
          ∀ o ∈ s.owned, o.owned.length = 1 ∧ o.required.length = 1 :=
  ⟨by decide, by decide, enqueued_shape sortedQueue 1 deadEnd (by decide)⟩

/-- C20: the numeric range of the comparison.  For equal-length vectors whose
coordinates are all below `2 ^ 31`, `operator<` agrees with the lexicographic
order on the numeric values; on such vectors it is irreflexive, transitive and
total (a strict total order), and `free < required` is false whenever `free`
is at least `required` in every coordinate. -/
theorem Resources.lt_lexicographic_below_2_31 (a b c : Resources)
    (hab : a.length = b.length) (hbc : b.length = c.length)
    (ha : ∀ x ∈ a, x < 2147483648) (hb : ∀ x ∈ b, x < 2147483648)
    (hc : ∀ x ∈ c, x < 2147483648) :
    (Resources.lt a b = true ↔ LexLess a b) ∧
      Resources.lt a a = false ∧
      (Resources.lt a b = true → Resources.lt b c = true → Resources.lt a c = true) ∧
      (Resources.lt a b = true ∨ a = b ∨ Resources.lt b a = true) ∧
      (Resources.lt a b = true → Resources.lt b a = false) ∧
      (Dominates a b → Resources.lt a b = false) := by
  refine ⟨Resources.lt_iff_lexLess_of_small a b hab ha hb, Resources.lt_irrefl a,
    Resources.lt_trans_of_small a b c hab hbc ha hb hc,
    Resources.lt_total_of_small a b hab ha hb,
    Resources.lt_asymm_of_small a b hab ha hb, ?_⟩
  intro hdom
  apply Resources.lt_eq_false_of_dominates a b hab _ hdom
  intro j hj
  have hmem : a.getD j 0 ∈ a := by
    rw [List.getD_eq_getElem _ _ hj]
    exact List.getElem_mem hj
  exact ha _ hmem

theorem Resources.lt_lexicographic_below_2_31_witness :
    ([1, 3, 4] : Resources).length = ([1, 3, 9] : Resources).length ∧
      ([1, 3, 9] : Resources).length = ([5, 2, 3] : Resources).length ∧
      Resources.lt [1, 3, 4] [1, 3, 9] = true ∧ Resources.lt [1, 3, 9] [5, 2, 3] = true ∧
      ((Resources.lt [1, 3, 4] [1, 3, 9] = true ↔ LexLess [1, 3, 4] [1, 3, 9]) ∧
        Resources.lt [1, 3, 4] [1, 3, 4] = false ∧
        (Resources.lt [1, 3, 4] [1, 3, 9] = true → Resources.lt [1, 3, 9] [5, 2, 3] = true →
          Resources.lt [1, 3, 4] [5, 2, 3] = true) ∧
        (Resources.lt [1, 3, 4] [1, 3, 9] = true ∨ ([1, 3, 4] : Resources) = [1, 3, 9] ∨
          Resources.lt [1, 3, 9] [1, 3, 4] = true) ∧
        (Resources.lt [1, 3, 4] [1, 3, 9] = true → Resources.lt [1, 3, 9] [1, 3, 4] = false) ∧
        (Dominates [1, 3, 4] [1, 3, 9] → Resources.lt [1, 3, 4] [1, 3, 9] = false)) :=
  ⟨by decide, by decide, by decide, by decide,
    Resources.lt_lexicographic_below_2_31 [1, 3, 4] [1, 3, 9] [5, 2, 3] (by decide) (by decide)
      (by decide) (by decide) (by decide)⟩

end Allocator
